import Mathlib

/-
Verification of the core logic of libView.py: attribute projection,
structural-compatibility checking, the cascading selector resolution,
the cell-series sorter, the library catalog and the selection set.
All definitions are shallow embeddings of the corresponding Python code;
numeric strings are interpreted as exact rationals (the Python code only
parses and displays them, it performs no arithmetic on them).
-/

set_option autoImplicit false

namespace LibView

/-! ## String helpers mirroring the Python string operations -/

/-- Python whitespace characters recognised by `str.split()`. -/
def isPySpace (c : Char) : Bool :=
  c = ' ' ∨ c = '\t' ∨ c = '\n' ∨ c = '\r' ∨ c = '\x0b' ∨ c = '\x0c'

/-- ASCII digit test, mirroring the regex class backslash-d on ASCII input. -/
def isPyDigit (c : Char) : Bool := '0' ≤ c ∧ c ≤ '9'

/-- Remove every occurrence of one character, mirroring `re.sub(c, '', s)`. -/
def stripChar (c : Char) (s : String) : String :=
  ⟨s.data.filter (fun x => x ≠ c)⟩

/-- Remove every double-quote character, mirroring `re.sub('"', '', s)`. -/
def stripQuotes (s : String) : String := stripChar '"' s

/-- Field extraction `dic.get(key, 'N/A')` followed by quote stripping. -/
def getStrField (o : Option String) : String := stripQuotes (o.getD "N/A")

/-- Helper for `str.split()`: tokens of non-whitespace characters. -/
def pySplitGo : List Char → List Char → List (List Char)
  | cur, [] => if cur.isEmpty then [] else [cur.reverse]
  | cur, c :: rest =>
    if isPySpace c then
      if cur.isEmpty then pySplitGo [] rest else cur.reverse :: pySplitGo [] rest
    else
      pySplitGo (c :: cur) rest

/-- Python `str.split()` with no argument: split on whitespace runs. -/
def pySplit (s : String) : List String :=
  (pySplitGo [] s.data).map (fun l => ⟨l⟩)

/-- Value of a digit character. -/
def digitVal (c : Char) : Nat := c.toNat - 48

/-- Python `int(s)` on a plain digit string. -/
def pyNat (s : String) : Nat :=
  s.data.foldl (fun n c => 10 * n + digitVal c) 0

/-- Natural number denoted by a digit list. -/
def digitsToNat (l : List Char) : Nat :=
  l.foldl (fun n c => 10 * n + digitVal c) 0

/-- Python `float(s)` on a decimal numeral, modelled exactly as a rational.
The numerals the program feeds to `float` are plain `[-]digits[.digits]`
strings taken from the library file. -/
def pyFloat (s : String) : ℚ :=
  let l := s.data
  let neg : Bool := match l with | '-' :: _ => true | _ => false
  let l1 : List Char := match l with | '-' :: r => r | '+' :: r => r | _ => l
  let ip := l1.takeWhile isPyDigit
  let rest := l1.drop ip.length
  let fp : List Char := match rest with | '.' :: r => r.takeWhile isPyDigit | _ => []
  let q : ℚ := (digitsToNat ip : ℚ) + (digitsToNat fp : ℚ) / ((10 : ℚ) ^ fp.length)
  if neg then -q else q

/-- Code-point comparison of character lists, as Python compares strings. -/
def charListLe : List Char → List Char → Bool
  | [], _ => true
  | _ :: _, [] => false
  | a :: as, b :: bs =>
    if a.toNat < b.toNat then true
    else if b.toNat < a.toNat then false
    else charListLe as bs

/-- Python string comparison `s <= t` (lexicographic on code points). -/
def strLe (s t : String) : Bool := charListLe s.data t.data

/-- Stable insertion of an element after every list element `y` with `le y x`,
mirroring the stability of Python's `list.sort`. -/
def insertLe {α : Type} (le : α → α → Bool) (x : α) : List α → List α
  | [] => [x]
  | y :: ys => if le y x then y :: insertLe le x ys else x :: y :: ys

/-- Stable sort by a boolean comparison, mirroring Python `list.sort`. -/
def isortBy {α : Type} (le : α → α → Bool) (l : List α) : List α :=
  l.foldl (fun acc x => insertLe le x acc) []

/-! ## Association-list operations mirroring the Python dict operations -/

/-- Lookup in an association list (first matching key), as indexing a dict. -/
def adLookup {β : Type} : List (String × β) → String → Option β
  | [], _ => none
  | p :: rest, k => if p.1 = k then some p.2 else adLookup rest k

/-- `dic.setdefault(k, []); dic[k].append(v)` on an ordered dict. -/
def adAppend (d : List (String × List String)) (k : String) (v : String) :
    List (String × List String) :=
  match d with
  | [] => [(k, [v])]
  | p :: rest => if p.1 = k then (p.1, p.2 ++ [v]) :: rest else p :: adAppend rest k v

/-- `dic.pop(k)` on an ordered dict with unique keys. -/
def adRemove (d : List (String × List String)) (k : String) :
    List (String × List String) :=
  d.filter (fun p => p.1 ≠ k)

/-! ## Structural-compatibility checker (`mainWindow.checkTabMultiEnable`)

The per-cell per-family containers are nested ordered dicts; the Python code
only tests them for emptiness (`if not lastTabCellDic`) and for deep
equality (`lastTabCellDic != tabCellDic`), so the checker is embedded
generically over any type with decidable equality, together with the value
playing the role of the empty dict. -/

/-- Loop body of `checkTabMultiEnable`: `lastTabCellDic` starts as the empty
dict; a cell seen while the reference is still empty becomes the reference
(via `deepcopy`); afterwards every cell is compared with the reference and
the first mismatch disables the mode. -/
def checkTabLoop {α : Type} [DecidableEq α] (empty : α) : List α → α → Bool
  | [], _ => true
  | c :: cs, last =>
    if last = empty then checkTabLoop empty cs c
    else if last = c then checkTabLoop empty cs last
    else false

/-- `mainWindow.checkTabMultiEnable`: false when fewer than 2 cells are
selected, otherwise the structure-equality scan over the per-cell dicts in
iteration order. -/
def checkTabMultiEnable {α : Type} [DecidableEq α] (empty : α)
    (specifiedCellCount : Nat) (cells : List α) : Bool :=
  if specifiedCellCount < 2 then false
  else checkTabLoop empty cells empty

/-! ## Table parsing (`mainWindow.getPinTimingInfo`, table-type blocks) -/

/-- Parse of an `index_1`/`index_2` raw string: the parens, quotes and commas
are removed and the remainder is split on whitespace. -/
def parseIndexStr (s : String) : List String :=
  pySplit (stripChar ',' (stripQuotes (stripChar ')' (stripChar '(' s))))

/-- Scanner for `re.split('"\s*,', s)`: a double quote followed by optional
whitespace and a comma separates two value rows.  The first argument holds a
pending quote-plus-whitespace run (in reverse) that may still become a
separator, the second the current segment (in reverse). -/
def splitVGo : Option (List Char) → List Char → List Char → List (List Char)
  | none, acc, [] => [acc.reverse]
  | some pend, acc, [] => [(pend ++ acc).reverse]
  | none, acc, c :: rest =>
    if c = '"' then splitVGo (some ['"']) acc rest
    else splitVGo none (c :: acc) rest
  | some pend, acc, c :: rest =>
    if c = ',' then acc.reverse :: splitVGo none [] rest
    else if isPySpace c then splitVGo (some (c :: pend)) acc rest
    else if c = '"' then splitVGo (some ['"']) (pend ++ acc) rest
    else splitVGo none (c :: pend ++ acc) rest

/-- Parse of a `values` raw string: parens removed, rows separated by a
quote-comma boundary, each row stripped of quotes and commas and split on
whitespace. -/
def parseValuesStr (s : String) : List (List String) :=
  let s1 := stripChar ')' (stripChar '(' s)
  (splitVGo none [] s1.data).map
    (fun seg => pySplit (stripChar ',' (stripQuotes ⟨seg⟩)))

/-- Raw table-type block as delivered by the external parser: the three
fields are unparsed strings and may be absent. -/
structure RawTable where
  index1 : Option String
  index2 : Option String
  values : Option String
deriving DecidableEq

/-- Raw timing arc as delivered by the external parser: optional quoted
discriminator fields plus a dict of table-type blocks. -/
structure RawTimingArc where
  relatedPin : Option String
  relatedPgPin : Option String
  timingSense : Option String
  timingType : Option String
  whenCond : Option String
  tableType : List (String × RawTable)
deriving DecidableEq

/-- Projected table: parsed index domains and the row-major value grid. -/
structure ProjTable where
  index1 : List String
  index2 : List String
  values : List (List String)
deriving DecidableEq

/-- Empty projected table (all three fields absent). -/
def emptyProjTable : ProjTable := ⟨[], [], []⟩

/-- Projected timing arc: quote-stripped discriminators defaulting to
`"N/A"`, plus the parsed table-type map restricted to the accepted names. -/
structure ProjTimingArc where
  relatedPin : String
  relatedPgPin : String
  timingSense : String
  timingType : String
  whenCond : String
  tableType : List (String × ProjTable)
deriving DecidableEq

/-- The table-type names accepted by `getPinTimingInfo` (note the source
spells the two ocv sigma constraint names without the first `s`). -/
def timingTableTypeOk (tableType : String) : Bool :=
  tableType = "cell_rise" ∨ tableType = "rise_transition" ∨
  tableType = "cell_fall" ∨ tableType = "fall_transition" ∨
  tableType = "rise_constraint" ∨ tableType = "fall_constraint" ∨
  tableType = "ocv_sigma_rise_contraint" ∨ tableType = "ocv_sigma_fall_contraint" ∨
  tableType = "ocv_sigma_rise_transition" ∨ tableType = "ocv_sigma_fall_transition" ∨
  tableType = "ocv_sigma_cell_rise" ∨ tableType = "ocv_sigma_cell_fall"

/-- The table-type names accepted by `getPinInternalPowerInfo`. -/
def internalPowerTableTypeOk (tableType : String) : Bool :=
  tableType = "fall_power" ∨ tableType = "rise_power"

/-- Parse one raw table block; absent fields yield empty sequences. -/
def parseRawTable (t : RawTable) : ProjTable :=
  { index1 := match t.index1 with | some s => parseIndexStr s | none => []
    index2 := match t.index2 with | some s => parseIndexStr s | none => []
    values := match t.values with | some s => parseValuesStr s | none => [] }

/-- Projection of one raw timing arc into the flat-record form built by
`getPinTimingInfo` (`tmpTimingDic`). -/
def projTimingArc (a : RawTimingArc) : ProjTimingArc :=
  { relatedPin := getStrField a.relatedPin
    relatedPgPin := getStrField a.relatedPgPin
    timingSense := getStrField a.timingSense
    timingType := getStrField a.timingType
    whenCond := getStrField a.whenCond
    tableType := a.tableType.filterMap
      (fun p => if timingTableTypeOk p.1 then some (p.1, parseRawTable p.2) else none) }

/-- Flat projected arc list (`tmpTimingDicList` of `getPinTimingInfo`). -/
def projTimingList (l : List RawTimingArc) : List ProjTimingArc :=
  l.map projTimingArc

/-! ## Single-cell timing resolution (`mainWindow.updateTimingTabTable`) -/

/-- Full discriminator tuple selected through the cascading combos. -/
structure TimingKey where
  relatedPin : String
  relatedPgPin : String
  timingSense : String
  timingType : String
  whenCond : String
deriving DecidableEq

/-- The record-matching test of the terminal resolution loops. -/
def arcMatches (k : TimingKey) (a : ProjTimingArc) : Bool :=
  k.relatedPin = a.relatedPin ∧ k.relatedPgPin = a.relatedPgPin ∧
  k.timingSense = a.timingSense ∧ k.timingType = a.timingType ∧
  k.whenCond = a.whenCond

/-- State accumulated by the single-cell resolution loop: the displayed
table triple, the 1-D curve lists and the 3-D surface arrays. -/
structure SingleRes where
  index1List : List String
  index2List : List String
  valuesList : List (List String)
  figX : List ℚ
  figY : List ℚ
  figXArr : List (List ℚ)
  figYArr : List (List ℚ)
  figZArr : List (List ℚ)
deriving DecidableEq

/-- Initial loop state (all lists and arrays empty). -/
def initSingleRes : SingleRes := ⟨[], [], [], [], [], [], [], []⟩

/-- One iteration of the single-cell resolution loop over the flat arc
list: a matching record overwrites the table triple, then the figure data
is derived according to which index selectors are set (positions, as
strings).  With both selectors set no figure branch applies. -/
def singleStep (k : TimingKey) (tableType i1 i2 : String)
    (st : SingleRes) (a : ProjTimingArc) : SingleRes :=
  if arcMatches k a then
    let t := (adLookup a.tableType tableType).getD emptyProjTable
    let st1 := { st with index1List := t.index1, index2List := t.index2,
                         valuesList := t.values }
    if i1 ≠ "" ∧ i2 = "" then
      { st1 with figX := t.index2.map pyFloat,
                 figY := (t.values.getD (pyNat i1) []).map pyFloat }
    else if i1 = "" ∧ i2 ≠ "" then
      { st1 with figX := t.index1.map pyFloat,
                 figY := st1.figY ++ t.values.map
                   (fun row => pyFloat (row.getD (pyNat i2) "")) }
    else if i1 = "" ∧ i2 = "" then
      { st1 with figXArr := t.index1.map (fun v => t.index2.map (fun _ => pyFloat v)),
                 figYArr := t.index2.map (fun _ => t.index2.map pyFloat),
                 figZArr := t.values.map (fun row => row.map pyFloat) }
    else st1
  else st

/-- Single-cell terminal resolution: the loop of `updateTimingTabTable`
over the selected cell's flat projected arc list. -/
def resolveTimingSingle (flat : List ProjTimingArc) (k : TimingKey)
    (tableType i1 i2 : String) : SingleRes :=
  flat.foldl (singleStep k tableType i1 i2) initSingleRes

/-- Direct flat-list lookup of a discriminator tuple in the raw arc list:
the record the resolution loop ends on is the last one whose quote-stripped
discriminators equal the tuple. -/
def lastMatchRaw (k : TimingKey) (l : List RawTimingArc) : Option RawTimingArc :=
  l.foldl (fun acc a => if arcMatches k (projTimingArc a) then some a else acc) none

/-- Parsed table of one raw arc at a table-type name (empty when absent). -/
def rawTableAt (a : RawTimingArc) (tableType : String) : ProjTable :=
  (adLookup (projTimingArc a).tableType tableType).getD emptyProjTable

/-! ## Multi-compare timing resolution (`updateTimingTabTable`, multi mode) -/

/-- One comparison row: library, cell, index_1 value, index_2 value, value. -/
structure MultiRow where
  lib : String
  cell : String
  idx1 : String
  idx2 : String
  value : String
deriving DecidableEq

/-- A selected cell with its flat projected timing arc list. -/
structure TimingCell where
  lib : String
  cell : String
  arcs : List ProjTimingArc
deriving DecidableEq

/-- Rows contributed by one cell in multi-compare mode: one row per
matching record, read at the (defaulted) index positions. -/
def timingMultiCell (c : TimingCell) (k : TimingKey) (tableType : String)
    (e1 e2 : Nat) : List MultiRow :=
  (c.arcs.filter (arcMatches k)).map (fun a =>
    let t := (adLookup a.tableType tableType).getD emptyProjTable
    { lib := c.lib, cell := c.cell,
      idx1 := t.index1.getD e1 "",
      idx2 := if 0 < t.index2.length then t.index2.getD e2 "" else "",
      value := (t.values.getD e1 []).getD e2 "" })

/-- The multi-compare table rows in selection order; empty index selectors
default to position 0 (the code writes `'0'` back into the combos). -/
def timingMultiRows (cells : List TimingCell) (k : TimingKey)
    (tableType i1 i2 : String) : List MultiRow :=
  let e1 := if i1 = "" then 0 else pyNat i1
  let e2 := if i2 = "" then 0 else pyNat i2
  (cells.map (fun c => timingMultiCell c k tableType e1 e2)).flatten

/-- The multi-compare comparison-curve values (`timingTabFigureYList`). -/
def timingMultiFigureY (cells : List TimingCell) (k : TimingKey)
    (tableType i1 i2 : String) : List ℚ :=
  (timingMultiRows cells k tableType i1 i2).map (fun r => pyFloat r.value)

/-! ## Leakage power (`getCellLeakagePowerInfo`, `updateLeakagePowerTabTable`) -/

/-- Raw leakage-power entry as delivered by the external parser. -/
structure RawLeakEntry where
  value : Option String
  whenCond : Option String
  relatedPgPin : Option String
deriving DecidableEq

/-- Projected leakage-power entry (quote-stripped, `"N/A"` defaults). -/
structure LeakEntry where
  value : String
  whenCond : String
  relatedPgPin : String
deriving DecidableEq

/-- Projection of one raw leakage-power entry. -/
def projLeakEntry (r : RawLeakEntry) : LeakEntry :=
  { value := getStrField r.value
    whenCond := getStrField r.whenCond
    relatedPgPin := getStrField r.relatedPgPin }

/-- A selected cell with its flat projected leakage-power entry list. -/
structure LeakCell where
  lib : String
  cell : String
  entries : List LeakEntry
deriving DecidableEq

/-- The value shown for one cell in the leakage-power comparison: the first
entry matching the chosen `when`/`related_pg_pin` pair; when no entry
matches, the code falls back to the integer `0`, which produces an empty
table item, modelled as `none`. -/
def leakageMultiValue (entries : List LeakEntry) (w pg : String) : Option String :=
  (entries.find? (fun e => e.whenCond = w ∧ e.relatedPgPin = pg)).map (fun e => e.value)

/-- One leakage comparison row: library, cell, when, pg pin, value cell. -/
structure LeakRow where
  lib : String
  cell : String
  whenCond : String
  relatedPgPin : String
  value : Option String
deriving DecidableEq

/-- The leakage-power comparison table: exactly one row per selected cell,
in selection order. -/
def leakageMultiRows (cells : List LeakCell) (w pg : String) : List LeakRow :=
  cells.map (fun c => ⟨c.lib, c.cell, w, pg, leakageMultiValue c.entries w pg⟩)

/-- The leakage comparison-curve values (`leakagePowerTabFigureYList`):
`float(specifiedValue)` over the per-cell values, the unmatched default
integer `0` becoming `0.0`. -/
def leakageFigureY (cells : List LeakCell) (w pg : String) : List ℚ :=
  cells.map (fun c => ((leakageMultiValue c.entries w pg).map pyFloat).getD 0)

/-! ## Library catalog (`mainWindow.loadLibFile`) -/

/-- Input of one load: the file path, the parser's cell list and the
parser's unit dict (`getCellList` / `getUnit`). -/
structure LibInput where
  path : String
  cellList : List String
  unitDic : List (String × String)
deriving DecidableEq

/-- Catalog state: loaded libraries (`libDic`, file name to cell list) and
the three process-wide reference unit strings. -/
structure Catalog where
  libs : List (String × List String)
  leakagePowerUnit : String
  timingUnit : String
  internalPowerUnit : String
deriving DecidableEq

/-- State set up by `initVars`: no libraries, empty unit strings. -/
def initCatalog : Catalog := ⟨[], "", "", ""⟩

/-- `os.path.basename`: the part of the path after the last slash. -/
def baseName (p : String) : String :=
  ⟨(p.data.reverse.takeWhile (fun c => c ≠ '/')).reverse⟩

/-- Unit normalisation: `re.sub('"', '', u)` then `re.sub('\d', '', u)`. -/
def stripUnit (s : String) : String :=
  ⟨s.data.filter (fun c => c ≠ '"' ∧ ¬ isPyDigit c)⟩

/-- Leakage-power unit reconciliation: on the first load with an empty
stored unit the stripped unit is adopted for both power units; a differing
later unit only raises a warning and is ignored. -/
def applyLeakUnit (st : Catalog) (u : Option String) : Catalog :=
  match u with
  | none => st
  | some s =>
    let v := stripUnit s
    if st.leakagePowerUnit = "" then
      { st with leakagePowerUnit := v, internalPowerUnit := v }
    else st

/-- Time unit reconciliation, same sentinel scheme for `timingUnit`. -/
def applyTimeUnit (st : Catalog) (u : Option String) : Catalog :=
  match u with
  | none => st
  | some s =>
    let v := stripUnit s
    if st.timingUnit = "" then { st with timingUnit := v } else st

/-- `mainWindow.loadLibFile`: an empty path opens the file dialog (not
modelled), a base name already present in `libDic` is skipped with a
warning, otherwise the parser output is stored and the units reconciled. -/
def loadLibFile (st : Catalog) (lib : LibInput) : Catalog :=
  if lib.path = "" then st
  else
    let name := baseName lib.path
    if (st.libs.map Prod.fst).contains name then st
    else
      let st1 := { st with libs := st.libs ++ [(name, lib.cellList)] }
      applyTimeUnit (applyLeakUnit st1 (adLookup lib.unitDic "leakage_power_unit"))
        (adLookup lib.unitDic "time_unit")

/-- A sequence of loads starting from the initial state. -/
def loadAll (libs : List LibInput) : Catalog :=
  libs.foldl loadLibFile initCatalog

/-- The reference unit a load sequence ends with, for one unit-dict key:
the first reported unit whose stripped form is non-empty. -/
def firstReportedUnit (key : String) (libs : List LibInput) : String :=
  (((libs.filterMap (fun l => (adLookup l.unitDic key).map stripUnit)).filter
    (fun v => v ≠ "")).headD "")

/-! ## Selection set (`mainWindow.cellListBeClicked`, tree scan) -/

/-- One tree item seen by the scan: its library, cell name and check state. -/
structure TreeItem where
  lib : String
  cell : String
  checked : Bool
deriving DecidableEq

/-- Selection state: `specifiedLibDic` (library to checked cell list, in
discovery order) and the running `specifiedCellCount`. -/
structure SelState where
  dic : List (String × List String)
  count : Nat
deriving DecidableEq

/-- Membership of a library key in `specifiedLibDic`. -/
def dicHasLib (d : List (String × List String)) (lib : String) : Bool :=
  d.any (fun p => p.1 = lib)

/-- Membership of a cell under a library in `specifiedLibDic`. -/
def dicHasCell (d : List (String × List String)) (lib cell : String) : Bool :=
  match adLookup d lib with
  | some cs => cs.contains cell
  | none => false

/-- `specifiedLibDic[lib] = OrderedDict()` when the key is absent. -/
def dicEnsureLib (d : List (String × List String)) (lib : String) :
    List (String × List String) :=
  if dicHasLib d lib then d else d ++ [(lib, [])]

/-- `specifiedLibDic[lib][cell] = OrderedDict()` (cell known absent). -/
def dicAddCell (d : List (String × List String)) (lib cell : String) :
    List (String × List String) :=
  d.map (fun p => if p.1 = lib then (p.1, p.2 ++ [cell]) else p)

/-- `del specifiedLibDic[lib][cell]`, then `del specifiedLibDic[lib]` when
the library's cell dict became empty. -/
def dicDelCell (d : List (String × List String)) (lib cell : String) :
    List (String × List String) :=
  d.filterMap (fun p =>
    if p.1 = lib then
      (if (p.2.erase cell).isEmpty then none else some (p.1, p.2.erase cell))
    else some p)

/-- Processing of one tree item by the `cellListBeClicked` scan. -/
def processItem (st : SelState) (it : TreeItem) : SelState :=
  if it.checked then
    let d1 := dicEnsureLib st.dic it.lib
    if dicHasCell d1 it.lib it.cell then { st with dic := d1 }
    else { dic := dicAddCell d1 it.lib it.cell, count := st.count + 1 }
  else
    if dicHasCell st.dic it.lib it.cell then
      { dic := dicDelCell st.dic it.lib it.cell, count := st.count - 1 }
    else st

/-- The full recomputation pass of `cellListBeClicked`: the selection state
is reset and rebuilt by scanning every tree item. -/
def cellListPass (items : List TreeItem) : SelState :=
  items.foldl processItem ⟨[], 0⟩

/-- Total number of (library, cell) pairs in the selection mapping. -/
def selCountTotal (d : List (String × List String)) : Nat :=
  (d.map (fun p => p.2.length)).sum

/-! ## Cell series sorter (`mainWindow.sortCellWithSize`) -/

/-- Test that a character list starts with the letters `BWP`. -/
def startsBWP : List Char → Bool
  | 'B' :: 'W' :: 'P' :: _ => true
  | _ => false

/-- Matcher for the compiled pattern `^(.+?)D(\d+)(BWP.*)$`: the lazy head
takes the fewest characters such that a `D`, a non-empty digit run and a
tail beginning with `BWP` follow; the digit run is maximal.  Returns
`(head, digits, tail)`.  The first argument is the head read so far, in
reverse. -/
def scanSeries : List Char → List Char → Option (String × String × String)
  | _, [] => none
  | hdRev, c :: rest =>
    if c = 'D' ∧ ¬ hdRev.isEmpty then
      let ds := rest.takeWhile isPyDigit
      let tl := rest.drop ds.length
      if ¬ ds.isEmpty ∧ startsBWP tl then some (⟨hdRev.reverse⟩, ⟨ds⟩, ⟨tl⟩)
      else scanSeries (c :: hdRev) rest
    else scanSeries (c :: hdRev) rest

/-- `seriesCellCompile.match(cellName)` with its three groups. -/
def matchSeries (cellName : String) : Option (String × String × String) :=
  scanSeries [] cellName.data

/-- Group key (`cellHead + cellTail`) and parsed drive strength of a name. -/
def classifySeries (cellName : String) : Option (String × Nat) :=
  (matchSeries cellName).map (fun t => (t.1 ++ t.2.2, pyNat t.2.1))

/-- Group key of a name, when it matches the series pattern. -/
def seriesKey (cellName : String) : Option String :=
  (classifySeries cellName).map Prod.fst

/-- Drive strength used as the in-group sort key (`int(match.group(2))`). -/
def seriesSize (cellName : String) : Nat :=
  ((classifySeries cellName).map Prod.snd).getD 0

/-- Comparison by drive strength (the `key=lambda` sort of a series). -/
def seriesLe (a b : String) : Bool := seriesSize a ≤ seriesSize b

/-- One step of the classification loop: a matching name is appended to its
group, a non-matching one to the `'zzz'` catch-all bucket. -/
def seriesStep (d : List (String × List String)) (cellName : String) :
    List (String × List String) :=
  match classifySeries cellName with
  | some kv => adAppend d kv.1 cellName
  | none => adAppend d "zzz" cellName

/-- The classification loop of `sortCellWithSize`, starting from the dict
holding only the empty `'zzz'` bucket. -/
def buildSeries (origCellList : List String) : List (String × List String) :=
  origCellList.foldl seriesStep [("zzz", [])]

/-- Demotion of one key: a group other than `'zzz'` with exactly one member
is popped and its member appended to the catch-all bucket. -/
def demoteStep (acc : List (String × List String)) (k : String) :
    List (String × List String) :=
  if k = "zzz" then acc
  else
    match adLookup acc k with
    | some [v] => adAppend (adRemove acc k) "zzz" v
    | _ => acc

/-- The demotion loop over the snapshot of the dict's keys. -/
def demoteSeries (d : List (String × List String)) :
    List (String × List String) :=
  (d.map Prod.fst).foldl demoteStep d

/-- The member of a singleton group, if the entry is one. -/
def singleVal (p : String × List String) : Option String :=
  match p.2 with
  | [v] => some v
  | _ => none

/-- `mainWindow.sortCellWithSize`: classify, demote singleton groups, sort
the keys lexicographically, sort each group (catch-all lexicographically,
real groups by drive strength) and concatenate. -/
def sortCellWithSize (origCellList : List String) : List String :=
  let d := demoteSeries (buildSeries origCellList)
  let ks := isortBy strLe (d.map Prod.fst)
  (ks.map (fun k =>
    let ms := (adLookup d k).getD []
    if k = "zzz" then isortBy strLe ms else isortBy seriesLe ms)).flatten

/-! ## Specification-level description of the sorter (amended claim C5) -/

/-- Names that do not match the series pattern. -/
def unmatchedCells (cellList : List String) : List String :=
  cellList.filter (fun n => (seriesKey n).isNone)

/-- Members of one group key, in input order. -/
def membersOf (cellList : List String) (k : String) : List String :=
  cellList.filter (fun n => seriesKey n = some k)

/-- First-occurrence deduplication of a key list. -/
def dedupKeys : List String → List String
  | [] => []
  | k :: ks => k :: dedupKeys (ks.filter (fun x => x ≠ k))
termination_by l => l.length
decreasing_by
  simp only [List.length_cons]
  exact Nat.lt_succ_of_le (List.length_filter_le _ _)

/-- Group keys in first-occurrence order. -/
def keysInOrder (cellList : List String) : List String :=
  dedupKeys (cellList.filterMap seriesKey)

/-- Keys of the real series (at least two members). -/
def multiKeys (cellList : List String) : List String :=
  (keysInOrder cellList).filter (fun k => 2 ≤ (membersOf cellList k).length)

/-- Members of singleton groups, demoted to the catch-all bucket in key
order. -/
def demotedCells (cellList : List String) : List String :=
  (((keysInOrder cellList).filter
      (fun k => (membersOf cellList k).length = 1)).map
    (membersOf cellList)).flatten

/-- The catch-all bucket contents before its final sort. -/
def catchAllCells (cellList : List String) : List String :=
  unmatchedCells cellList ++ demotedCells cellList

/-- The amended specification of the sorter: the catch-all bucket keyed
`"zzz"` is sorted together with the real group keys; real groups are
ordered by drive strength, the catch-all bucket lexicographically. -/
def sortCellSpec (cellList : List String) : List String :=
  ((isortBy strLe ("zzz" :: multiKeys cellList)).map (fun k =>
    if k = "zzz" then isortBy strLe (catchAllCells cellList)
    else isortBy seriesLe (membersOf cellList k))).flatten

/-! ## Projection recomputation over a bundle scope (`getTimingInfo`) -/

/-- Raw pin node: the `timing` key may be absent. -/
structure RawPin where
  timing : Option (List RawTimingArc)
deriving DecidableEq

/-- Raw bundle (or bus) node: optional own `timing` list plus named pins. -/
structure RawScope where
  timing : Option (List RawTimingArc)
  pins : List (String × RawPin)
deriving DecidableEq

/-- Processing of one pin beneath a bundle/bus by `getTimingInfo`: when the
pin owns a `timing` list, that very list object is extended in place with
the bundle-level arcs (`libPinTimingDicList.extend(bundleTimingDicList)`
aliases the raw tree), so the returned raw pin carries the combined list. -/
def scopePinPass (scopeArcs : List RawTimingArc) (p : RawPin) :
    Option (List ProjTimingArc) × RawPin :=
  match p.timing with
  | some l => (some (projTimingList (l ++ scopeArcs)), ⟨some (l ++ scopeArcs)⟩)
  | none =>
    if scopeArcs.isEmpty then (none, p)
    else (some (projTimingList scopeArcs), p)

/-- One projection pass of `getTimingInfo` over a bundle/bus scope: the
projected flat list per pin, together with the raw tree as it stands after
the pass. -/
def scopePass (sc : RawScope) :
    List (String × Option (List ProjTimingArc)) × RawScope :=
  let bt := sc.timing.getD []
  ((sc.pins.map (fun q => (q.1, (scopePinPass bt q.2).1))),
   { sc with pins := sc.pins.map (fun q => (q.1, (scopePinPass bt q.2).2)) })

/-! ## Specification-level table-type family (claim C6) -/

/-- Modelled from the spec: the enumerated table-type family of section 3,
"cell_rise, cell_fall, rise_transition, fall_transition, rise_constraint,
fall_constraint, and their ocv_sigma variants" (all spelled as English
words). -/
def specTimingTableTypeSet (tableType : String) : Bool :=
  tableType = "cell_rise" ∨ tableType = "cell_fall" ∨
  tableType = "rise_transition" ∨ tableType = "fall_transition" ∨
  tableType = "rise_constraint" ∨ tableType = "fall_constraint" ∨
  tableType = "ocv_sigma_cell_rise" ∨ tableType = "ocv_sigma_cell_fall" ∨
  tableType = "ocv_sigma_rise_transition" ∨ tableType = "ocv_sigma_fall_transition" ∨
  tableType = "ocv_sigma_rise_constraint" ∨ tableType = "ocv_sigma_fall_constraint"

/-! ## Concrete data used by the examples -/

/-- The timing arc of claim C2, in projected form: `index_1 = ["1","2"]`,
`index_2 = ["0.1","0.2"]`, `values = [["10","20"],["30","40"]]` under the
table type `cell_rise`. -/
def arcC2 : ProjTimingArc :=
  { relatedPin := "A", relatedPgPin := "N/A", timingSense := "positive_unate",
    timingType := "combinational", whenCond := "N/A",
    tableType := [("cell_rise",
      ⟨["1", "2"], ["0.1", "0.2"], [["10", "20"], ["30", "40"]]⟩)] }

/-- The discriminator tuple selecting `arcC2`. -/
def keyC2 : TimingKey :=
  ⟨"A", "N/A", "positive_unate", "combinational", "N/A"⟩

/-- A raw timing arc carrying the table of claim C2 in unparsed form. -/
def rawC3 : RawTimingArc :=
  { relatedPin := some "\"A\"", relatedPgPin := none,
    timingSense := some "positive_unate", timingType := none, whenCond := none,
    tableType := [("cell_rise",
      ⟨some "(\"1, 2\")", some "(\"0.1, 0.2\")", some "(\"10, 20\", \"30, 40\")"⟩)] }

/-- The discriminator tuple selecting `rawC3` after projection. -/
def keyC3 : TimingKey := ⟨"A", "N/A", "positive_unate", "N/A", "N/A"⟩

/-- A raw timing arc with both spellings of the ocv sigma rise constraint
table-type name. -/
def rawC6 : RawTimingArc :=
  { relatedPin := some "A", relatedPgPin := none, timingSense := none,
    timingType := none, whenCond := none,
    tableType := [("ocv_sigma_rise_constraint", ⟨none, none, none⟩),
                  ("ocv_sigma_rise_contraint", ⟨none, none, none⟩)] }

/-- A bundle-level raw timing arc (claim C4). -/
def arcBundle : RawTimingArc := ⟨some "B", none, none, none, none, []⟩

/-- A pin-level raw timing arc (claim C4). -/
def arcPin : RawTimingArc := ⟨some "P", none, none, none, none, []⟩

/-- A bundle whose pin `P` owns a timing list while the bundle also
declares one (claim C4). -/
def scC4 : RawScope := ⟨some [arcBundle], [("P", ⟨some [arcPin]⟩)]⟩

/-! ## Cascading selector stages over the projected timing tab dict
(`updateTimingTabPinCombo`, `updateTimingTabRelatedPinCombo`)

Both stages read `self.timingTabDic[libraryFileName][cellName]` of the
first displayed cell (the double loop breaks after the first body run).
Python dict indexing `d[k]` on a missing key raises `KeyError`; the
embedding returns `Option` results with `none` for a raised `KeyError`.
`list(set(d.keys()))` is modelled as first-occurrence deduplication of the
key list (only its emptiness and membership matter below). -/

/-- `timingTabDic[lib][cell][...]['pin'][p]`: the optional `'timing'` key
holds (for these stages) the keys of `['timing']['related_pin']`; the
`'related_pin'` level always exists when `'timing'` does
(`getPinTimingInfo` creates it first, libView.py line 850). -/
structure ComboPin where
  timing : Option (List String)
deriving DecidableEq

/-- `timingTabDic[lib][cell]` as read by the cascading combo stages. The
`'pin'`, `'bundle'` and `'bus'` keys are each optional (`getTimingInfo`
creates `'pin'` only for cells with direct timed pins, libView.py line
975, and `'bundle'`/`'bus'` only for timed bundles/buses); a
bundle/bus entry always holds a `'pin'` dict (created by `setdefault`,
libView.py line 937), inlined here as the entry's value. -/
structure ComboCell where
  pin : Option (List (String × ComboPin))
  bundle : Option (List (String × List (String × ComboPin)))
  bus : Option (List (String × List (String × ComboPin)))
deriving DecidableEq

/-- `mainWindow.updateTimingTabPinCombo`'s candidate-pin computation
(libView.py lines 1520-1531): the bundle and bus branches index
`['bundle'][specifiedBundle]['pin']` / `['bus'][specifiedBus]['pin']`
unguarded, the direct-pin branch is guarded by `if 'pin' in ...` with
`pinList = []` otherwise. -/
def updateTimingTabPinCombo (cell : ComboCell)
    (specifiedBundle specifiedBus : String) : Option (List String) :=
  if specifiedBundle ≠ "" then
    match cell.bundle with
    | none => none
    | some bd =>
      match adLookup bd specifiedBundle with
      | none => none
      | some pinDic => some (dedupKeys (pinDic.map Prod.fst))
  else if specifiedBus ≠ "" then
    match cell.bus with
    | none => none
    | some bd =>
      match adLookup bd specifiedBus with
      | none => none
      | some pinDic => some (dedupKeys (pinDic.map Prod.fst))
  else
    match cell.pin with
    | some pinDic => some (dedupKeys (pinDic.map Prod.fst))
    | none => some []

/-- `mainWindow.updateTimingTabRelatedPinCombo`'s candidate computation
(libView.py lines 1549-1562): `pinTimingRelatedPinList` starts `[]`; every
branch tests `if 'timing' in ...[pinName]`, but the indexing up to
`[pinName]` inside that test is unguarded — in particular the else branch
(no bundle and no bus selected) indexes `[cellName]['pin'][pinName]`
(libView.py line 1560), raising `KeyError` when the cell dict has no
`'pin'` key or `pinName` is not one of its pins. -/
def updateTimingTabRelatedPinCombo (cell : ComboCell) (pinName : String)
    (specifiedBundle specifiedBus : String) : Option (List String) :=
  if specifiedBundle ≠ "" then
    match cell.bundle with
    | none => none
    | some bd =>
      match adLookup bd specifiedBundle with
      | none => none
      | some pinDic =>
        match adLookup pinDic pinName with
        | none => none
        | some pn =>
          match pn.timing with
          | some rps => some (dedupKeys rps)
          | none => some []
  else if specifiedBus ≠ "" then
    match cell.bus with
    | none => none
    | some bd =>
      match adLookup bd specifiedBus with
      | none => none
      | some pinDic =>
        match adLookup pinDic pinName with
        | none => none
        | some pn =>
          match pn.timing with
          | some rps => some (dedupKeys rps)
          | none => some []
  else
    match cell.pin with
    | none => none
    | some pinDic =>
      match adLookup pinDic pinName with
      | none => none
      | some pn =>
        match pn.timing with
        | some rps => some (dedupKeys rps)
        | none => some []

/-- A bundle-only cell's projected timing tab dict: one timed bundle `"B"`
with pin `"P"`, and no `'pin'` key (`getTimingInfo` creates it only for
direct pins). -/
def comboCellC7 : ComboCell :=
  ⟨none, some [("B", [("P", ⟨some ["A"]⟩)])], none⟩

/-! ## Structural-compatibility checker: characterisation (claim C1) -/

/-- Once a non-empty reference structure is fixed, the scan accepts exactly
when every remaining cell equals the reference. -/
theorem checkTabLoop_ref {α : Type} [DecidableEq α] (empty last : α)
    (h : last ≠ empty) (cs : List α) :
    checkTabLoop empty cs last = true ↔ ∀ x ∈ cs, x = last := by
  induction cs with
  | nil => simp [checkTabLoop]
  | cons c cs ih =>
    simp only [checkTabLoop, if_neg h]
    by_cases hc : last = c
    · simp only [if_pos hc, ih, List.mem_cons]
      constructor
      · intro hall x hx
        rcases hx with hx | hx
        · rw [hx, hc]
        · exact hall x hx
      · intro hall x hx
        exact hall x (Or.inr hx)
    · simp only [if_neg hc]
      constructor
      · intro hfalse
        exact absurd hfalse (by simp)
      · intro hall
        exact absurd (hall c (by simp)).symm hc

/-- The scan with the empty reference skips the leading empty structures
and then compares everything against the first non-empty structure. -/
theorem checkTabLoop_scan {α : Type} [DecidableEq α] (empty : α) (cs : List α) :
    checkTabLoop empty cs empty = true ↔
      ∀ x ∈ cs.dropWhile (fun c => decide (c = empty)),
        (cs.dropWhile (fun c => decide (c = empty))).head? = some x := by
  induction cs with
  | nil => simp [checkTabLoop]
  | cons c cs ih =>
    by_cases hc : c = empty
    · have h1 : checkTabLoop empty (c :: cs) empty = checkTabLoop empty cs empty := by
        simp [checkTabLoop, hc]
      have h2 : (c :: cs).dropWhile (fun c => decide (c = empty)) =
          cs.dropWhile (fun c => decide (c = empty)) := by
        simp [List.dropWhile, hc]
      rw [h1, h2]
      exact ih
    · have h1 : checkTabLoop empty (c :: cs) empty = checkTabLoop empty cs c := by
        simp [checkTabLoop]
      have h2 : (c :: cs).dropWhile (fun c => decide (c = empty)) = c :: cs := by
        simp [List.dropWhile, hc]
      rw [h1, h2, checkTabLoop_ref empty c hc]
      simp only [List.head?_cons, List.mem_cons, Option.some.injEq]
      constructor
      · intro hall x hx
        rcases hx with hx | hx
        · rw [hx]
        · exact (hall x hx).symm
      · intro hall x hx
        exact (hall x (Or.inr hx)).symm

/-- C1, amended: for each attribute family independently, multi-compare is
enabled iff at least 2 cells are selected and, after skipping any leading
selected cells whose per-family structure is empty, every remaining
selected cell's structure (scope, discriminator chain, table-type presence,
not numeric leaves) is deeply equal to the first non-empty one; with 0 or 1
selected cells it is always false, and the scan stops at the first
mismatching cell of the family being checked. -/
theorem c1_multiEnable_amended {α : Type} [DecidableEq α] (empty : α)
    (count : Nat) (cells : List α) :
    checkTabMultiEnable empty count cells = true ↔
      (2 ≤ count ∧
        ∀ x ∈ cells.dropWhile (fun c => decide (c = empty)),
          (cells.dropWhile (fun c => decide (c = empty))).head? = some x) := by
  unfold checkTabMultiEnable
  by_cases h : count < 2
  · simp [h, Nat.not_le.mpr h]
  · simp only [if_neg h, checkTabLoop_scan, Nat.not_lt.mp h, true_and]

/-- C1, counterexample to the claim as stated: with three selected cells
whose structures are (empty, X, X) the code enables multi-compare, although
the second and third structures are not deeply equal to the first selected
cell's (empty) structure. -/
theorem c1_counterexample :
    checkTabMultiEnable ([] : List (String × List String)) 3
        [[], [("when1", ["VDD"])], [("when1", ["VDD"])]] = true
    ∧ ([[], [("when1", ["VDD"])], [("when1", ["VDD"])]] :
        List (List (String × List String))).head? = some []
    ∧ ([("when1", ["VDD"])] : List (String × List String)) ≠ [] := by
  refine ⟨by decide, by decide, by decide⟩

/-! ## Library catalog: duplicate load (claim C8) -/

/-- C8: loading a library whose base file name is already present in the
catalog is a no-op: the load is skipped (with a warning) before the parser
would be invoked, leaving the cell lists and all stored reference units
exactly as they were. -/
theorem c8_duplicateLoad (st : Catalog) (lib : LibInput)
    (h1 : lib.path ≠ "")
    (h2 : (st.libs.map Prod.fst).contains (baseName lib.path) = true) :
    loadLibFile st lib = st := by
  unfold loadLibFile
  rw [if_neg h1, if_pos h2]

/-- C8, witness: a concrete duplicate load that leaves the catalog
unchanged. -/
theorem c8_duplicateLoad_witness :
    ("/tmp/x.lib" : String) ≠ "" ∧
    loadLibFile ⟨[("x.lib", ["C"])], "pW", "ns", "pW"⟩
        ⟨"/tmp/x.lib", ["C2"], [("leakage_power_unit", "\"nW\"")]⟩ =
      ⟨[("x.lib", ["C"])], "pW", "ns", "pW"⟩ :=
  ⟨by decide, c8_duplicateLoad _ _ (by decide) (by decide)⟩

/-! ## Selection set invariant (claim C10) -/

/-- A library key that is not present looks up to nothing. -/
theorem dicHasLib_false_iff (d : List (String × List String)) (lib : String) :
    dicHasLib d lib = false ↔ ∀ q ∈ d, q.1 ≠ lib := by
  simp [dicHasLib]

/-- Lookup fails exactly on absent keys. -/
theorem adLookup_eq_none {β : Type} :
    ∀ (d : List (String × β)) (k : String),
      adLookup d k = none ↔ ∀ q ∈ d, q.1 ≠ k
  | [], k => by simp [adLookup]
  | p :: rest, k => by
    by_cases h : p.1 = k
    · simp [adLookup, h]
    · simp only [adLookup, if_neg h, adLookup_eq_none rest k, List.mem_cons]
      constructor
      · intro hall q hq
        rcases hq with hq | hq
        · rw [hq]; exact h
        · exact hall q hq
      · intro hall q hq
        exact hall q (Or.inr hq)

/-- Lookup on an append scans the second list once the first has no key. -/
theorem adLookup_append_of_none {β : Type} :
    ∀ (d e : List (String × β)) (k : String), adLookup d k = none →
      adLookup (d ++ e) k = adLookup e k
  | [], e, k, _ => rfl
  | p :: rest, e, k, h => by
    have hp : ¬ p.1 = k := by
      intro hp
      simp [adLookup, hp] at h
    simp only [List.cons_append, adLookup, if_neg hp]
    apply adLookup_append_of_none
    simpa [adLookup, hp] using h

/-- A successful lookup returns an entry of the list. -/
theorem adLookup_mem {β : Type} :
    ∀ (d : List (String × β)) (k : String) (v : β),
      adLookup d k = some v → (k, v) ∈ d
  | [], _, _, h => by cases h
  | p :: rest, k, v, h => by
    by_cases hp : p.1 = k
    · simp only [adLookup, if_pos hp] at h
      have hv : v = p.2 := by injection h with h1; exact h1.symm
      have hkv : (k, v) = p := by rw [hv, ← hp]
      rw [hkv]
      exact List.mem_cons_self p rest
    · simp only [adLookup, if_neg hp] at h
      exact List.mem_cons_of_mem _ (adLookup_mem rest k v h)

/-- With unique keys, lookup of an entry's key returns that entry. -/
theorem adLookup_unique {β : Type} :
    ∀ (d : List (String × β)) (k : String) (q : String × β),
      (d.map Prod.fst).Nodup → q ∈ d → q.1 = k → adLookup d k = some q.2
  | [], _, q, _, hq, _ => absurd hq (List.not_mem_nil q)
  | p :: rest, k, q, hk, hq, h1 => by
    rcases List.mem_cons.mp hq with hq | hq
    · subst hq
      simp [adLookup, h1]
    · have hp : ¬ p.1 = k := by
        intro hp
        have : p.1 ∈ rest.map Prod.fst := by
          rw [hp, ← h1]
          exact List.mem_map_of_mem Prod.fst hq
        exact (List.nodup_cons.mp (by simpa using hk)).1 this
      simp only [adLookup, if_neg hp]
      exact adLookup_unique rest k q (List.nodup_cons.mp (by simpa using hk)).2 hq h1

/-- Adding a cell never changes the key sequence. -/
theorem dicAddCell_keys (d : List (String × List String)) (lib cell : String) :
    (dicAddCell d lib cell).map Prod.fst = d.map Prod.fst := by
  unfold dicAddCell
  rw [List.map_map]
  apply List.map_congr_left
  intro p _
  by_cases h : p.1 = lib <;> simp [h]

/-- Adding a cell to an absent key leaves the mapping unchanged. -/
theorem dicAddCell_id (d : List (String × List String)) (lib cell : String)
    (h : ∀ q ∈ d, q.1 ≠ lib) : dicAddCell d lib cell = d := by
  induction d with
  | nil => rfl
  | cons p rest ih =>
    have hrest := ih (fun q hq => h q (List.mem_cons_of_mem p hq))
    simp only [dicAddCell] at hrest ⊢
    simp only [List.map_cons, if_neg (h p (List.mem_cons_self p rest))]
    rw [hrest]

/-- Every entry after a cell addition is an untouched entry with a
different key, or the extended entry of the given library. -/
theorem dicAddCell_mem (d : List (String × List String)) (lib cell : String)
    (p : String × List String) (hp : p ∈ dicAddCell d lib cell) :
    (p ∈ d ∧ p.1 ≠ lib) ∨ ∃ q ∈ d, q.1 = lib ∧ p = (q.1, q.2 ++ [cell]) := by
  unfold dicAddCell at hp
  rcases List.mem_map.mp hp with ⟨q, hq, hpq⟩
  by_cases h : q.1 = lib
  · right
    exact ⟨q, hq, h, by rw [← hpq, if_pos h]⟩
  · left
    rw [← hpq, if_neg h]
    exact ⟨hq, h⟩

/-- Adding a cell under a present key (unique keys) raises the pair count
by one. -/
theorem dicAddCell_total :
    ∀ (d : List (String × List String)) (lib cell : String),
      (d.map Prod.fst).Nodup → dicHasLib d lib = true →
      selCountTotal (dicAddCell d lib cell) = selCountTotal d + 1
  | [], lib, cell, _, hl => by simp [dicHasLib] at hl
  | p :: rest, lib, cell, hk, hl => by
    by_cases h : p.1 = lib
    · have hrest : ∀ q ∈ rest, q.1 ≠ lib := by
        intro q hq hq1
        have : p.1 ∈ rest.map Prod.fst := by
          rw [h, ← hq1]
          exact List.mem_map_of_mem Prod.fst hq
        exact (List.nodup_cons.mp (by simpa using hk)).1 this
      have hid : List.map (fun p => if p.1 = lib then (p.1, p.2 ++ [cell]) else p) rest
          = rest := by
        simpa [dicAddCell] using dicAddCell_id rest lib cell hrest
      simp only [dicAddCell, List.map_cons, if_pos h]
      rw [hid]
      simp only [selCountTotal, List.map_cons, List.sum_cons, List.length_append,
        List.length_singleton]
      omega
    · have hl' : dicHasLib rest lib = true := by
        simp only [dicHasLib, List.any_cons] at hl
        rcases Bool.or_eq_true_iff.mp hl with h1 | h1
        · exact absurd (of_decide_eq_true h1) h
        · exact h1
      have ih := dicAddCell_total rest lib cell
        (List.nodup_cons.mp (by simpa using hk)).2 hl'
      simp only [dicAddCell, List.map_cons, if_neg h]
      simp only [dicAddCell] at ih
      simp only [selCountTotal, List.map_cons, List.sum_cons] at ih ⊢
      omega

/-- Deleting from an absent key leaves the mapping unchanged. -/
theorem dicDelCell_id (d : List (String × List String)) (lib cell : String)
    (h : ∀ q ∈ d, q.1 ≠ lib) : dicDelCell d lib cell = d := by
  induction d with
  | nil => rfl
  | cons p rest ih =>
    simp only [dicDelCell, List.filterMap_cons, if_neg (h p (List.mem_cons_self p rest))]
    have := ih (fun q hq => h q (List.mem_cons_of_mem p hq))
    simp only [dicDelCell] at this
    rw [this]

/-- A present cell contributes at least one pair to the count. -/
theorem dicHasCell_pos :
    ∀ (d : List (String × List String)) (lib cell : String),
      dicHasCell d lib cell = true → 1 ≤ selCountTotal d
  | [], lib, cell, h => by simp [dicHasCell, adLookup] at h
  | p :: rest, lib, cell, h => by
    by_cases hp : p.1 = lib
    · have : p.2.contains cell = true := by simpa [dicHasCell, adLookup, hp] using h
      have : p.2 ≠ [] := by
        intro he
        rw [he] at this
        simp at this
      have : 1 ≤ p.2.length := List.length_pos.mpr this
      simp only [selCountTotal, List.map_cons, List.sum_cons]
      omega
    · have : dicHasCell rest lib cell = true := by
        simpa [dicHasCell, adLookup, hp] using h
      have := dicHasCell_pos rest lib cell this
      simp only [selCountTotal, List.map_cons, List.sum_cons] at *
      omega

/-- Deleting a present cell (unique keys) lowers the pair count by one. -/
theorem dicDelCell_total :
    ∀ (d : List (String × List String)) (lib cell : String),
      (d.map Prod.fst).Nodup → dicHasCell d lib cell = true →
      selCountTotal (dicDelCell d lib cell) = selCountTotal d - 1
  | [], lib, cell, _, hc => by simp [dicHasCell, adLookup] at hc
  | p :: rest, lib, cell, hk, hc => by
    by_cases h : p.1 = lib
    · have hmem : cell ∈ p.2 := by
        have : p.2.contains cell = true := by simpa [dicHasCell, adLookup, h] using hc
        simpa using this
      have hrest : ∀ q ∈ rest, q.1 ≠ lib := by
        intro q hq hq1
        have : p.1 ∈ rest.map Prod.fst := by
          rw [h, ← hq1]
          exact List.mem_map_of_mem Prod.fst hq
        exact (List.nodup_cons.mp (by simpa using hk)).1 this
      have hid : rest.filterMap (fun p =>
          if p.1 = lib then
            (if (p.2.erase cell).isEmpty then none else some (p.1, p.2.erase cell))
          else some p) = rest := by
        simpa [dicDelCell] using dicDelCell_id rest lib cell hrest
      have hlen : (p.2.erase cell).length = p.2.length - 1 :=
        List.length_erase_of_mem hmem
      have hpos : 1 ≤ p.2.length := List.length_pos.mpr (List.ne_nil_of_mem hmem)
      by_cases he : (p.2.erase cell).isEmpty
      · have h0 : (p.2.erase cell).length = 0 := by
          rw [List.isEmpty_iff] at he
          rw [he]
          rfl
        simp only [dicDelCell, List.filterMap_cons, if_pos h, if_pos he]
        rw [hid]
        simp only [selCountTotal, List.map_cons, List.sum_cons]
        omega
      · simp only [dicDelCell, List.filterMap_cons, if_pos h,
          if_neg (by simp [he] : ¬ (p.2.erase cell).isEmpty = true)]
        rw [hid]
        simp only [selCountTotal, List.map_cons, List.sum_cons]
        omega
    · have hc' : dicHasCell rest lib cell = true := by
        simpa [dicHasCell, adLookup, h] using hc
      have ih := dicDelCell_total rest lib cell
        (List.nodup_cons.mp (by simpa using hk)).2 hc'
      have hpos := dicHasCell_pos rest lib cell hc'
      simp only [dicDelCell, List.filterMap_cons, if_neg h]
      simp only [dicDelCell] at ih
      simp only [selCountTotal, List.map_cons, List.sum_cons] at ih hpos ⊢
      omega

/-- The key sequence after a deletion is a subsequence of the original. -/
theorem dicDelCell_keys_sublist :
    ∀ (d : List (String × List String)) (lib cell : String),
      ((dicDelCell d lib cell).map Prod.fst).Sublist (d.map Prod.fst)
  | [], _, _ => List.Sublist.refl _
  | p :: rest, lib, cell => by
    by_cases h : p.1 = lib
    · by_cases he : (p.2.erase cell).isEmpty
      · simp only [dicDelCell, List.filterMap_cons, if_pos h, if_pos he]
        exact List.Sublist.cons _ (dicDelCell_keys_sublist rest lib cell)
      · simp only [dicDelCell, List.filterMap_cons, if_pos h,
          if_neg (by simp [he] : ¬ (p.2.erase cell).isEmpty = true), List.map_cons]
        exact List.Sublist.cons₂ _ (dicDelCell_keys_sublist rest lib cell)
    · simp only [dicDelCell, List.filterMap_cons, if_neg h, List.map_cons]
      exact List.Sublist.cons₂ _ (dicDelCell_keys_sublist rest lib cell)

/-- Every entry after a deletion is an untouched entry or the shrunk,
still non-empty entry of the given library. -/
theorem dicDelCell_mem (d : List (String × List String)) (lib cell : String)
    (p : String × List String) (hp : p ∈ dicDelCell d lib cell) :
    (p ∈ d ∧ p.1 ≠ lib) ∨
      ∃ q ∈ d, q.1 = lib ∧ p = (q.1, q.2.erase cell) ∧ q.2.erase cell ≠ [] := by
  unfold dicDelCell at hp
  rcases List.mem_filterMap.mp hp with ⟨q, hq, hpq⟩
  by_cases h : q.1 = lib
  · rw [if_pos h] at hpq
    by_cases he : (q.2.erase cell).isEmpty
    · rw [if_pos he] at hpq
      cases hpq
    · rw [if_neg (by simp [he] : ¬ (q.2.erase cell).isEmpty = true)] at hpq
      right
      refine ⟨q, hq, h, by injection hpq with h1; exact h1.symm, ?_⟩
      intro hnil
      rw [hnil] at he
      simp at he
  · rw [if_neg h] at hpq
    injection hpq with h1
    rw [← h1]
    exact Or.inl ⟨hq, h⟩

/-- The pass state preservation: every invariant of the selection mapping
survives one processed tree item. -/
theorem processItem_good (st : SelState) (it : TreeItem)
    (h1 : st.count = selCountTotal st.dic)
    (h2 : ∀ p ∈ st.dic, p.2 ≠ [])
    (h3 : (st.dic.map Prod.fst).Nodup)
    (h4 : ∀ p ∈ st.dic, p.2.Nodup) :
    (processItem st it).count = selCountTotal (processItem st it).dic
    ∧ (∀ p ∈ (processItem st it).dic, p.2 ≠ [])
    ∧ ((processItem st it).dic.map Prod.fst).Nodup
    ∧ ∀ p ∈ (processItem st it).dic, p.2.Nodup := by
  unfold processItem
  by_cases hch : it.checked
  · simp only [if_pos hch]
    set d1 := dicEnsureLib st.dic it.lib with hd1
    have hd1cases : (d1 = st.dic ∧ dicHasLib st.dic it.lib = true) ∨
        (d1 = st.dic ++ [(it.lib, [])] ∧ dicHasLib st.dic it.lib = false) := by
      by_cases hl : dicHasLib st.dic it.lib
      · left
        exact ⟨by rw [hd1, dicEnsureLib, if_pos hl], hl⟩
      · right
        exact ⟨by rw [hd1, dicEnsureLib, if_neg hl], by simpa using hl⟩
    have hd1total : selCountTotal d1 = selCountTotal st.dic := by
      rcases hd1cases with ⟨h, _⟩ | ⟨h, _⟩
      · rw [h]
      · rw [h]
        simp [selCountTotal]
    have hd1keys : (d1.map Prod.fst).Nodup := by
      rcases hd1cases with ⟨h, _⟩ | ⟨h, hl⟩
      · rw [h]; exact h3
      · rw [h]
        have hnot : it.lib ∉ st.dic.map Prod.fst := by
          intro hmem
          rcases List.mem_map.mp hmem with ⟨q, hq, hq1⟩
          exact (dicHasLib_false_iff _ _ |>.mp hl) q hq hq1
        have hperm : (st.dic.map Prod.fst ++ [it.lib]).Perm
            (it.lib :: st.dic.map Prod.fst) := List.perm_append_singleton _ _
        rw [List.map_append]
        exact (hperm.nodup_iff).mpr (List.nodup_cons.mpr ⟨hnot, h3⟩)
    have hd1lib : dicHasLib d1 it.lib = true := by
      rcases hd1cases with ⟨h, hl⟩ | ⟨h, _⟩
      · rw [h]; exact hl
      · rw [h]
        simp [dicHasLib]
    have hd1mem : ∀ p ∈ d1, p ∈ st.dic ∨ p = (it.lib, []) := by
      intro p hp
      rcases hd1cases with ⟨h, _⟩ | ⟨h, _⟩
      · rw [h] at hp; exact Or.inl hp
      · rw [h] at hp
        rcases List.mem_append.mp hp with hp | hp
        · exact Or.inl hp
        · right; simpa using hp
    by_cases hc : dicHasCell d1 it.lib it.cell
    · simp only [if_pos hc]
      rcases hd1cases with ⟨h, _⟩ | ⟨h, hl⟩
      · rw [h]
        exact ⟨h1, h2, h3, h4⟩
      · exfalso
        have hnone : adLookup st.dic it.lib = none :=
          (adLookup_eq_none _ _).mpr (dicHasLib_false_iff _ _ |>.mp hl)
        have : adLookup d1 it.lib = some [] := by
          rw [h, adLookup_append_of_none _ _ _ hnone]
          simp [adLookup]
        rw [dicHasCell, this] at hc
        simp at hc
    · simp only [if_neg hc]
      have hcfalse : dicHasCell d1 it.lib it.cell = false := by
        cases hb : dicHasCell d1 it.lib it.cell
        · rfl
        · exact absurd hb hc
      refine ⟨?_, ?_, ?_, ?_⟩
      · simp only [dicAddCell_total d1 it.lib it.cell hd1keys hd1lib, hd1total]
        omega
      · intro p hp
        rcases dicAddCell_mem d1 it.lib it.cell p hp with ⟨hp1, hp2⟩ | ⟨q, hq, hq1, hpq⟩
        · rcases hd1mem p hp1 with hm | hm
          · exact h2 p hm
          · exact absurd (by rw [hm]) hp2
        · rw [hpq]
          simp
      · rw [dicAddCell_keys]
        exact hd1keys
      · intro p hp
        rcases dicAddCell_mem d1 it.lib it.cell p hp with ⟨hp1, _⟩ | ⟨q, hq, hq1, hpq⟩
        · rcases hd1mem p hp1 with hm | hm
          · exact h4 p hm
          · rw [hm]; exact List.nodup_nil
        · have hlook : adLookup d1 it.lib = some q.2 :=
            adLookup_unique d1 it.lib q hd1keys hq hq1
          have hnotin : it.cell ∉ q.2 := by
            intro hmem
            rw [dicHasCell, hlook] at hcfalse
            simp at hcfalse
            exact hcfalse hmem
          have hqnodup : q.2.Nodup := by
            rcases hd1mem q hq with hm | hm
            · exact h4 q hm
            · rw [hm]; exact List.nodup_nil
          rw [hpq]
          have hperm : (q.2 ++ [it.cell]).Perm (it.cell :: q.2) :=
            List.perm_append_singleton _ _
          exact (hperm.nodup_iff).mpr (List.nodup_cons.mpr ⟨hnotin, hqnodup⟩)
  · simp only [if_neg hch]
    by_cases hc : dicHasCell st.dic it.lib it.cell
    · simp only [if_pos hc]
      refine ⟨?_, ?_, ?_, ?_⟩
      · simp only [dicDelCell_total st.dic it.lib it.cell h3 hc, h1]
      · intro p hp
        rcases dicDelCell_mem st.dic it.lib it.cell p hp with ⟨hp1, _⟩ | ⟨q, _, _, hpq, hne⟩
        · exact h2 p hp1
        · rw [hpq]
          simpa using hne
      · exact (dicDelCell_keys_sublist st.dic it.lib it.cell).nodup h3
      · intro p hp
        rcases dicDelCell_mem st.dic it.lib it.cell p hp with ⟨hp1, _⟩ | ⟨q, hq, _, hpq, _⟩
        · exact h4 p hp1
        · rw [hpq]
          exact (h4 q hq).erase it.cell
    · simp only [if_neg hc]
      exact ⟨h1, h2, h3, h4⟩

/-- C10: after every selection recomputation pass, the running selected
cell count equals the number of (library, cell) pairs stored in the
mapping, and every library key present holds at least one selected cell;
since the pass rebuilds the mapping from the fresh tree state, this holds
for every sequence of check and uncheck events. -/
theorem c10_selectionInvariant (items : List TreeItem) :
    (cellListPass items).count = selCountTotal (cellListPass items).dic
    ∧ ∀ p ∈ (cellListPass items).dic, p.2 ≠ [] := by
  suffices h : ∀ (st : SelState),
      st.count = selCountTotal st.dic → (∀ p ∈ st.dic, p.2 ≠ []) →
      ((st.dic.map Prod.fst).Nodup) → (∀ p ∈ st.dic, p.2.Nodup) →
      (items.foldl processItem st).count = selCountTotal (items.foldl processItem st).dic
      ∧ ∀ p ∈ (items.foldl processItem st).dic, p.2 ≠ [] by
    exact h ⟨[], 0⟩ (by simp [selCountTotal]) (by simp) (by simp) (by simp)
  induction items with
  | nil => intro st h1 h2 _ _; exact ⟨h1, h2⟩
  | cons it rest ih =>
    intro st h1 h2 h3 h4
    have hstep := processItem_good st it h1 h2 h3 h4
    exact ih (processItem st it) hstep.1 hstep.2.1 hstep.2.2.1 hstep.2.2.2

/-! ## Library catalog: unit reconciliation (claim C9) -/

/-- Neither unit-reconciliation step touches the library mapping. -/
theorem applyLeakUnit_libs (st : Catalog) (u : Option String) :
    (applyLeakUnit st u).libs = st.libs := by
  unfold applyLeakUnit
  cases u with
  | none => rfl
  | some s => by_cases h : st.leakagePowerUnit = "" <;> simp [h]

/-- Neither unit-reconciliation step touches the library mapping. -/
theorem applyTimeUnit_libs (st : Catalog) (u : Option String) :
    (applyTimeUnit st u).libs = st.libs := by
  unfold applyTimeUnit
  cases u with
  | none => rfl
  | some s => by_cases h : st.timingUnit = "" <;> simp [h]

/-- The leakage step leaves the time unit alone. -/
theorem applyLeakUnit_timing (st : Catalog) (u : Option String) :
    (applyLeakUnit st u).timingUnit = st.timingUnit := by
  unfold applyLeakUnit
  cases u with
  | none => rfl
  | some s => by_cases h : st.leakagePowerUnit = "" <;> simp [h]

/-- The time step leaves the power units alone. -/
theorem applyTimeUnit_leak (st : Catalog) (u : Option String) :
    (applyTimeUnit st u).leakagePowerUnit = st.leakagePowerUnit := by
  unfold applyTimeUnit
  cases u with
  | none => rfl
  | some s => by_cases h : st.timingUnit = "" <;> simp [h]

/-- The time step leaves the power units alone. -/
theorem applyTimeUnit_internal (st : Catalog) (u : Option String) :
    (applyTimeUnit st u).internalPowerUnit = st.internalPowerUnit := by
  unfold applyTimeUnit
  cases u with
  | none => rfl
  | some s => by_cases h : st.timingUnit = "" <;> simp [h]

/-- The stored leakage unit after one reconciliation step. -/
theorem applyLeakUnit_leak (st : Catalog) (u : Option String) :
    (applyLeakUnit st u).leakagePowerUnit =
      match u with
      | none => st.leakagePowerUnit
      | some s => if st.leakagePowerUnit = "" then stripUnit s
                  else st.leakagePowerUnit := by
  unfold applyLeakUnit
  cases u with
  | none => rfl
  | some s => by_cases h : st.leakagePowerUnit = "" <;> simp [h]

/-- The internal-power unit always tracks the leakage unit. -/
theorem applyLeakUnit_internal_eq (st : Catalog) (u : Option String)
    (hip : st.internalPowerUnit = st.leakagePowerUnit) :
    (applyLeakUnit st u).internalPowerUnit = (applyLeakUnit st u).leakagePowerUnit := by
  unfold applyLeakUnit
  cases u with
  | none => exact hip
  | some s => by_cases h : st.leakagePowerUnit = "" <;> simp [h, hip]

/-- The stored time unit after one reconciliation step. -/
theorem applyTimeUnit_time (st : Catalog) (u : Option String) :
    (applyTimeUnit st u).timingUnit =
      match u with
      | none => st.timingUnit
      | some s => if st.timingUnit = "" then stripUnit s else st.timingUnit := by
  unfold applyTimeUnit
  cases u with
  | none => rfl
  | some s => by_cases h : st.timingUnit = "" <;> simp [h]

/-- Unfolding of the first non-empty reported unit along the sequence. -/
theorem firstReportedUnit_cons (key : String) (l : LibInput) (libs : List LibInput) :
    firstReportedUnit key (l :: libs) =
      match adLookup l.unitDic key with
      | none => firstReportedUnit key libs
      | some s => if stripUnit s = "" then firstReportedUnit key libs
                  else stripUnit s := by
  unfold firstReportedUnit
  cases h : adLookup l.unitDic key with
  | none => simp [List.filterMap_cons, h]
  | some s =>
    simp only [List.filterMap_cons, h, Option.map_some']
    by_cases he : stripUnit s = ""
    · simp [List.filter_cons, he]
    · simp [List.filter_cons, he]

/-- The fold of fresh, non-empty-path loads: the libraries accumulate in
order and each reference unit is the state's unit if already set, else the
first non-empty stripped reported unit of the sequence. -/
theorem loadAll_go :
    ∀ (libs : List LibInput) (st : Catalog),
      (∀ l ∈ libs, l.path ≠ "") →
      (∀ l ∈ libs, baseName l.path ∉ st.libs.map Prod.fst) →
      ((libs.map (fun l => baseName l.path)).Nodup) →
      st.internalPowerUnit = st.leakagePowerUnit →
      (libs.foldl loadLibFile st).libs
          = st.libs ++ libs.map (fun l => (baseName l.path, l.cellList))
      ∧ (libs.foldl loadLibFile st).leakagePowerUnit
          = (if st.leakagePowerUnit = ""
             then firstReportedUnit "leakage_power_unit" libs
             else st.leakagePowerUnit)
      ∧ (libs.foldl loadLibFile st).internalPowerUnit
          = (if st.leakagePowerUnit = ""
             then firstReportedUnit "leakage_power_unit" libs
             else st.leakagePowerUnit)
      ∧ (libs.foldl loadLibFile st).timingUnit
          = (if st.timingUnit = ""
             then firstReportedUnit "time_unit" libs
             else st.timingUnit)
  | [], st, _, _, _, hip => by
    simp only [List.foldl_nil]
    refine ⟨by simp, ?_, ?_, ?_⟩
    · by_cases h : st.leakagePowerUnit = "" <;> simp [h, firstReportedUnit]
    · rw [hip]
      by_cases h : st.leakagePowerUnit = "" <;> simp [h, firstReportedUnit]
    · by_cases h : st.timingUnit = "" <;> simp [h, firstReportedUnit]
  | l :: libs, st, hne, hfresh, hnodup, hip => by
    have hpath : l.path ≠ "" := hne l (List.mem_cons_self l libs)
    have hnotmem : baseName l.path ∉ st.libs.map Prod.fst :=
      hfresh l (List.mem_cons_self l libs)
    have hcont : ¬ ((st.libs.map Prod.fst).contains (baseName l.path) = true) := by
      simpa using hnotmem
    have hload : loadLibFile st l =
        applyTimeUnit
          (applyLeakUnit { st with libs := st.libs ++ [(baseName l.path, l.cellList)] }
            (adLookup l.unitDic "leakage_power_unit"))
          (adLookup l.unitDic "time_unit") := by
      unfold loadLibFile
      rw [if_neg hpath, if_neg hcont]
    have hlibs1 : (loadLibFile st l).libs
        = st.libs ++ [(baseName l.path, l.cellList)] := by
      rw [hload, applyTimeUnit_libs, applyLeakUnit_libs]
    have hleak1 : (loadLibFile st l).leakagePowerUnit =
        match adLookup l.unitDic "leakage_power_unit" with
        | none => st.leakagePowerUnit
        | some s => if st.leakagePowerUnit = "" then stripUnit s
                    else st.leakagePowerUnit := by
      rw [hload, applyTimeUnit_leak, applyLeakUnit_leak]
    have hip1 : (loadLibFile st l).internalPowerUnit
        = (loadLibFile st l).leakagePowerUnit := by
      rw [hload, applyTimeUnit_internal, applyTimeUnit_leak]
      exact applyLeakUnit_internal_eq _ _ hip
    have htime1 : (loadLibFile st l).timingUnit =
        match adLookup l.unitDic "time_unit" with
        | none => st.timingUnit
        | some s => if st.timingUnit = "" then stripUnit s else st.timingUnit := by
      rw [hload, applyTimeUnit_time, applyLeakUnit_timing]
    have hnodup' : ((libs.map (fun l => baseName l.path)).Nodup) :=
      (List.nodup_cons.mp hnodup).2
    have hheadnot : baseName l.path ∉ libs.map (fun l => baseName l.path) :=
      (List.nodup_cons.mp hnodup).1
    have hfresh' : ∀ x ∈ libs, baseName x.path ∉ (loadLibFile st l).libs.map Prod.fst := by
      intro x hx
      rw [hlibs1, List.map_append]
      intro hmem
      rcases List.mem_append.mp hmem with hmem | hmem
      · exact hfresh x (List.mem_cons_of_mem l hx) hmem
      · have : baseName x.path = baseName l.path := by simpa using hmem
        exact hheadnot (this ▸ List.mem_map_of_mem (fun l => baseName l.path) hx)
    have ih := loadAll_go libs (loadLibFile st l)
      (fun x hx => hne x (List.mem_cons_of_mem l hx)) hfresh' hnodup' hip1
    rw [List.foldl_cons]
    refine ⟨?_, ?_, ?_, ?_⟩
    · rw [ih.1, hlibs1, List.map_cons, List.append_assoc]
      rfl
    · rw [ih.2.1, hleak1, firstReportedUnit_cons]
      by_cases h0 : st.leakagePowerUnit = ""
      · cases hu : adLookup l.unitDic "leakage_power_unit" with
        | none => simp [h0]
        | some s =>
          by_cases hs : stripUnit s = ""
          · simp [h0, hs]
          · simp [h0, hs]
      · cases hu : adLookup l.unitDic "leakage_power_unit" with
        | none => simp [h0]
        | some s => simp [h0]
    · rw [ih.2.2.1, hleak1, firstReportedUnit_cons]
      by_cases h0 : st.leakagePowerUnit = ""
      · cases hu : adLookup l.unitDic "leakage_power_unit" with
        | none => simp [h0]
        | some s =>
          by_cases hs : stripUnit s = ""
          · simp [h0, hs]
          · simp [h0, hs]
      · cases hu : adLookup l.unitDic "leakage_power_unit" with
        | none => simp [h0]
        | some s => simp [h0]
    · rw [ih.2.2.2, htime1, firstReportedUnit_cons]
      by_cases h0 : st.timingUnit = ""
      · cases hu : adLookup l.unitDic "time_unit" with
        | none => simp [h0]
        | some s =>
          by_cases hs : stripUnit s = ""
          · simp [h0, hs]
          · simp [h0, hs]
      · cases hu : adLookup l.unitDic "time_unit" with
        | none => simp [h0]
        | some s => simp [h0]

/-- C9, amended: over a sequence of distinct, non-empty-path library loads,
the process-wide reference units for leakage power / internal power and for
time are those declared by the first loaded library whose reported unit
(with quote characters and digits stripped) is non-empty; a later library
reporting a different unit still loads (its cells are catalogued) but only
a warning is printed and the stored reference unit stays unchanged (values
are never rescaled). -/
theorem c9_units_amended (libs : List LibInput)
    (hne : ∀ l ∈ libs, l.path ≠ "")
    (hnodup : (libs.map (fun l => baseName l.path)).Nodup) :
    (loadAll libs).libs = libs.map (fun l => (baseName l.path, l.cellList))
    ∧ (loadAll libs).leakagePowerUnit = firstReportedUnit "leakage_power_unit" libs
    ∧ (loadAll libs).internalPowerUnit = firstReportedUnit "leakage_power_unit" libs
    ∧ (loadAll libs).timingUnit = firstReportedUnit "time_unit" libs := by
  have h := loadAll_go libs initCatalog hne
    (by intro l _; simp [initCatalog]) hnodup rfl
  simpa [loadAll, initCatalog] using h

/-- C9, witness: two concrete loads with conflicting leakage units keep the
first library's unit and still catalogue both libraries. -/
theorem c9_units_witness :
    (loadAll [⟨"/lib/a.lib", ["C1"],
                [("leakage_power_unit", "\"1pW\""), ("time_unit", "\"1ns\"")]⟩,
              ⟨"/lib/b.lib", ["C2"], [("leakage_power_unit", "\"1nW\"")]⟩]).libs
        = [("a.lib", ["C1"]), ("b.lib", ["C2"])]
    ∧ (loadAll [⟨"/lib/a.lib", ["C1"],
                  [("leakage_power_unit", "\"1pW\""), ("time_unit", "\"1ns\"")]⟩,
                ⟨"/lib/b.lib", ["C2"], [("leakage_power_unit", "\"1nW\"")]⟩]).leakagePowerUnit
        = firstReportedUnit "leakage_power_unit"
            [⟨"/lib/a.lib", ["C1"],
                [("leakage_power_unit", "\"1pW\""), ("time_unit", "\"1ns\"")]⟩,
             ⟨"/lib/b.lib", ["C2"], [("leakage_power_unit", "\"1nW\"")]⟩] := by
  have h := c9_units_amended
    [⟨"/lib/a.lib", ["C1"], [("leakage_power_unit", "\"1pW\""), ("time_unit", "\"1ns\"")]⟩,
     ⟨"/lib/b.lib", ["C2"], [("leakage_power_unit", "\"1nW\"")]⟩]
    (by decide) (by decide)
  refine ⟨?_, h.2.1⟩
  rw [h.1]
  decide

/-- C9, counterexample to the claim as stated: the first loaded library
reports a leakage-power unit, but because its stripped form is empty the
sentinel stays empty and the second library's unit is adopted, so the
stored reference unit is not the first reporting library's. -/
theorem c9_counterexample :
    (adLookup ([("leakage_power_unit", "\"1\"")] : List (String × String))
        "leakage_power_unit").isSome = true
    ∧ stripUnit "\"1\"" = ""
    ∧ (loadAll [⟨"a.lib", ["C1"], [("leakage_power_unit", "\"1\"")]⟩,
                ⟨"b.lib", ["C2"], [("leakage_power_unit", "\"1pW\"")]⟩]).leakagePowerUnit
        = "pW"
    ∧ ("pW" : String) ≠ "" := by
  refine ⟨by decide, by decide, by decide, by decide⟩

/-! ## Single-cell resolution versus flat-list lookup (claims C2 and C3) -/

/-- C2, counterexample to the claim as stated: the index selectors hold
positions, not index values, so the selector text `"1"` picks row 1
(`[30.0, 40.0]`), not the row of the index value `"1"`; and with both
selectors set the single-cell path takes none of its figure branches, so no
scalar (in particular not `40.0`) is resolved. -/
theorem c2_counterexample :
    (resolveTimingSingle [arcC2] keyC2 "cell_rise" "1" "").figY = [30, 40]
    ∧ ([30, 40] : List ℚ) ≠ [10, 20]
    ∧ (resolveTimingSingle [arcC2] keyC2 "cell_rise" "2" "0.2").figY = []
    ∧ (resolveTimingSingle [arcC2] keyC2 "cell_rise" "2" "0.2").figX = [] := by
  refine ⟨?_, by decide, by decide, by decide⟩
  have h : (resolveTimingSingle [arcC2] keyC2 "cell_rise" "1" "").figY
      = ["30", "40"].map pyFloat := rfl
  rw [h]
  simp [pyFloat, digitsToNat, digitVal, isPyDigit, List.takeWhile]

/-- C2, amended: the index selectors hold positions `0..N-1`; with
position `"0"` for index_1 and index_2 unset the slice `[10.0, 20.0]` over
the domain `[0.1, 0.2]` is resolved (position `"1"` gives `[30.0, 40.0]`);
with both positions set, the single-cell path resolves no slice or scalar
and the full 2-D table stays displayed, while the scalar `40.0` at
positions `("1", "1")` (index values `"2"`/`"0.2"`) is produced by the
multi-compare resolution. -/
theorem c2_resolve_amended :
    (resolveTimingSingle [arcC2] keyC2 "cell_rise" "0" "").figX = [1/10, 1/5]
    ∧ (resolveTimingSingle [arcC2] keyC2 "cell_rise" "0" "").figY = [10, 20]
    ∧ (resolveTimingSingle [arcC2] keyC2 "cell_rise" "1" "").figY = [30, 40]
    ∧ (resolveTimingSingle [arcC2] keyC2 "cell_rise" "1" "1").figX = []
    ∧ (resolveTimingSingle [arcC2] keyC2 "cell_rise" "1" "1").figY = []
    ∧ (resolveTimingSingle [arcC2] keyC2 "cell_rise" "1" "1").valuesList
        = [["10", "20"], ["30", "40"]]
    ∧ timingMultiRows [⟨"lib1", "cell1", [arcC2]⟩] keyC2 "cell_rise" "1" "1"
        = [⟨"lib1", "cell1", "2", "0.2", "40"⟩]
    ∧ timingMultiFigureY [⟨"lib1", "cell1", [arcC2]⟩] keyC2 "cell_rise" "1" "1"
        = [40] := by
  refine ⟨?_, ?_, ?_, by decide, by decide, by decide, by decide, ?_⟩
  · have h : (resolveTimingSingle [arcC2] keyC2 "cell_rise" "0" "").figX
        = ["0.1", "0.2"].map pyFloat := rfl
    rw [h]
    simp [pyFloat, digitsToNat, digitVal, isPyDigit, List.takeWhile]
    norm_num
  · have h : (resolveTimingSingle [arcC2] keyC2 "cell_rise" "0" "").figY
        = ["10", "20"].map pyFloat := rfl
    rw [h]
    simp [pyFloat, digitsToNat, digitVal, isPyDigit, List.takeWhile]
  · have h : (resolveTimingSingle [arcC2] keyC2 "cell_rise" "1" "").figY
        = ["30", "40"].map pyFloat := rfl
    rw [h]
    simp [pyFloat, digitsToNat, digitVal, isPyDigit, List.takeWhile]
  · have h : timingMultiFigureY [⟨"lib1", "cell1", [arcC2]⟩] keyC2 "cell_rise" "1" "1"
        = ["40"].map pyFloat := rfl
    rw [h]
    simp [pyFloat, digitsToNat, digitVal, isPyDigit, List.takeWhile]

/-- On a matching record, the single-cell loop body overwrites the table
triple with the record's chosen table (whatever figure branch applies) and,
when only the first index selector is set, sets the curve to that table's
selected row. -/
theorem singleStep_match (k : TimingKey) (tt i1 i2 : String) (st : SingleRes)
    (a : ProjTimingArc) (hm : arcMatches k a = true) :
    (singleStep k tt i1 i2 st a).index1List
        = ((adLookup a.tableType tt).getD emptyProjTable).index1
    ∧ (singleStep k tt i1 i2 st a).index2List
        = ((adLookup a.tableType tt).getD emptyProjTable).index2
    ∧ (singleStep k tt i1 i2 st a).valuesList
        = ((adLookup a.tableType tt).getD emptyProjTable).values
    ∧ ((i1 ≠ "" ∧ i2 = "") →
        (singleStep k tt i1 i2 st a).figY
          = (((adLookup a.tableType tt).getD emptyProjTable).values.getD
              (pyNat i1) []).map pyFloat) := by
  simp only [singleStep, if_pos hm]
  by_cases hbr1 : i1 ≠ "" ∧ i2 = ""
  · rw [if_pos hbr1]
    exact ⟨rfl, rfl, rfl, fun _ => rfl⟩
  · rw [if_neg hbr1]
    by_cases hbr2 : i1 = "" ∧ i2 ≠ ""
    · rw [if_pos hbr2]
      exact ⟨rfl, rfl, rfl, fun h => absurd h hbr1⟩
    · rw [if_neg hbr2]
      by_cases hbr3 : i1 = "" ∧ i2 = ""
      · rw [if_pos hbr3]
        exact ⟨rfl, rfl, rfl, fun h => absurd h hbr1⟩
      · rw [if_neg hbr3]
        exact ⟨rfl, rfl, rfl, fun h => absurd h hbr1⟩

/-- A record that misses the discriminator tuple leaves the loop state
untouched. -/
theorem singleStep_nomatch (k : TimingKey) (tt i1 i2 : String) (st : SingleRes)
    (a : ProjTimingArc) (hm : ¬ arcMatches k a = true) :
    singleStep k tt i1 i2 st a = st := by
  unfold singleStep
  rw [if_neg hm]

/-- The resolution fold against the lookup fold: from any pair of related
states, the two folds stay related on the displayed table triple and, when
the first index selector alone is set, on the resolved curve. -/
theorem resolveFold_lastMatch (k : TimingKey) (tt i1 i2 : String) :
    ∀ (L : List RawTimingArc) (st : SingleRes) (acc : Option RawTimingArc),
      st.index1List = ((acc.map (fun a => (rawTableAt a tt).index1)).getD []) →
      st.index2List = ((acc.map (fun a => (rawTableAt a tt).index2)).getD []) →
      st.valuesList = ((acc.map (fun a => (rawTableAt a tt).values)).getD []) →
      ((i1 ≠ "" ∧ i2 = "") →
        st.figY = (((acc.map (fun a => (rawTableAt a tt).values)).getD []).getD
          (pyNat i1) []).map pyFloat) →
      ((L.map projTimingArc).foldl (singleStep k tt i1 i2) st).index1List
          = (((L.foldl (fun acc a => if arcMatches k (projTimingArc a) then some a else acc)
              acc).map (fun a => (rawTableAt a tt).index1)).getD [])
      ∧ ((L.map projTimingArc).foldl (singleStep k tt i1 i2) st).index2List
          = (((L.foldl (fun acc a => if arcMatches k (projTimingArc a) then some a else acc)
              acc).map (fun a => (rawTableAt a tt).index2)).getD [])
      ∧ ((L.map projTimingArc).foldl (singleStep k tt i1 i2) st).valuesList
          = (((L.foldl (fun acc a => if arcMatches k (projTimingArc a) then some a else acc)
              acc).map (fun a => (rawTableAt a tt).values)).getD [])
      ∧ ((i1 ≠ "" ∧ i2 = "") →
          ((L.map projTimingArc).foldl (singleStep k tt i1 i2) st).figY
            = ((((L.foldl (fun acc a => if arcMatches k (projTimingArc a) then some a else acc)
                acc).map (fun a => (rawTableAt a tt).values)).getD []).getD
                  (pyNat i1) []).map pyFloat)
  | [], st, acc, h1, h2, h3, h4 => ⟨h1, h2, h3, h4⟩
  | a :: L, st, acc, h1, h2, h3, h4 => by
    simp only [List.map_cons, List.foldl_cons]
    by_cases hm : arcMatches k (projTimingArc a)
    · rw [if_pos hm]
      have hs := singleStep_match k tt i1 i2 st (projTimingArc a) hm
      exact resolveFold_lastMatch k tt i1 i2 L
        (singleStep k tt i1 i2 st (projTimingArc a)) (some a)
        hs.1 hs.2.1 hs.2.2.1 hs.2.2.2
    · rw [if_neg hm, singleStep_nomatch k tt i1 i2 st (projTimingArc a) hm]
      exact resolveFold_lastMatch k tt i1 i2 L st acc h1 h2 h3 h4

/-- C3: for any raw arc list and any full discriminator tuple, the table
triple resolved in single-cell mode through the cascading stages, and every
terminal scalar read off it, equal the data re-derived by looking the same
tuple up directly in the raw, unprojected arc list (the last raw record
whose stripped discriminators match) and parsing its chosen table. -/
theorem c3_flat_roundtrip (L : List RawTimingArc) (k : TimingKey)
    (tt i1 i2 : String) :
    (resolveTimingSingle (projTimingList L) k tt i1 i2).index1List
        = (((lastMatchRaw k L).map (fun a => (rawTableAt a tt).index1)).getD [])
    ∧ (resolveTimingSingle (projTimingList L) k tt i1 i2).index2List
        = (((lastMatchRaw k L).map (fun a => (rawTableAt a tt).index2)).getD [])
    ∧ (resolveTimingSingle (projTimingList L) k tt i1 i2).valuesList
        = (((lastMatchRaw k L).map (fun a => (rawTableAt a tt).values)).getD [])
    ∧ ((i1 ≠ "" ∧ i2 = "") →
        (resolveTimingSingle (projTimingList L) k tt i1 i2).figY
          = ((((lastMatchRaw k L).map (fun a => (rawTableAt a tt).values)).getD []).getD
              (pyNat i1) []).map pyFloat) := by
  have h := resolveFold_lastMatch k tt i1 i2 L initSingleRes none
    rfl rfl rfl (by intro _; rfl)
  exact h

/-- C3, witness: the round trip evaluated on a concrete raw arc with the
first index selector set. -/
theorem c3_flat_roundtrip_witness :
    (("0" : String) ≠ "" ∧ ("" : String) = "")
    ∧ (resolveTimingSingle (projTimingList [rawC3]) keyC3 "cell_rise" "0" "").figY
        = ((((lastMatchRaw keyC3 [rawC3]).map
              (fun a => (rawTableAt a "cell_rise").values)).getD []).getD
                (pyNat "0") []).map pyFloat :=
  ⟨⟨by decide, rfl⟩,
   (c3_flat_roundtrip [rawC3] keyC3 "cell_rise" "0" "").2.2.2 ⟨by decide, rfl⟩⟩

/-! ## Table-type filter (claim C6) -/

/-- C6: the code's accepted timing table-type set diverges from the
spec's enumerated family exactly at the misspelled ocv sigma constraint
names; a raw arc carrying the correctly spelled
`ocv_sigma_rise_constraint` silently loses that table in projection, while
the misspelled `ocv_sigma_rise_contraint` is kept. -/
theorem c6_tableTypeFilter_bug :
    timingTableTypeOk "ocv_sigma_rise_constraint" = false
    ∧ specTimingTableTypeSet "ocv_sigma_rise_constraint" = true
    ∧ timingTableTypeOk "ocv_sigma_fall_constraint" = false
    ∧ specTimingTableTypeSet "ocv_sigma_fall_constraint" = true
    ∧ timingTableTypeOk "ocv_sigma_rise_contraint" = true
    ∧ specTimingTableTypeSet "ocv_sigma_rise_contraint" = false
    ∧ adLookup (projTimingArc rawC6).tableType "ocv_sigma_rise_constraint" = none
    ∧ (adLookup (projTimingArc rawC6).tableType "ocv_sigma_rise_contraint").isSome
        = true := by
  refine ⟨by decide, by decide, by decide, by decide, by decide, by decide,
    by decide, by decide⟩

/-! ## Empty resolutions (claim C7) -/

/-- C7, amended: in multi-compare mode a selected cell whose flat timing
list has no record matching the chosen discriminator tuple contributes no
row to the comparison output (and an empty selection yields no rows), while
in the leakage-power comparison every selected cell contributes exactly one
row, a cell without a matching entry contributing an empty value cell and
the default `0.0` to the comparison curve; and an empty candidate set at a
selector stage does not simply yield empty results downstream: for a cell
whose projected dict has no `'pin'` key, the guarded pin stage yields an
empty candidate list, but the next stage with no bundle or bus selected
indexes `[cellName]['pin'][pinName]` unguarded and raises `KeyError`
(modelled as `none`) for every pin selector text. -/
theorem c7_noMatch_amended (cells1 cells2 : List TimingCell) (c : TimingCell)
    (lcells1 lcells2 : List LeakCell) (lc : LeakCell)
    (k : TimingKey) (tt i1 i2 w pg : String)
    (hc : c.arcs.filter (arcMatches k) = [])
    (hl : lc.entries.find? (fun e => e.whenCond = w ∧ e.relatedPgPin = pg) = none) :
    timingMultiRows (cells1 ++ c :: cells2) k tt i1 i2
        = timingMultiRows cells1 k tt i1 i2 ++ timingMultiRows cells2 k tt i1 i2
    ∧ timingMultiRows [] k tt i1 i2 = []
    ∧ leakageMultiRows (lcells1 ++ lc :: lcells2) w pg
        = leakageMultiRows lcells1 w pg
          ++ ⟨lc.lib, lc.cell, w, pg, none⟩ :: leakageMultiRows lcells2 w pg
    ∧ leakageFigureY (lcells1 ++ lc :: lcells2) w pg
        = leakageFigureY lcells1 w pg ++ 0 :: leakageFigureY lcells2 w pg
    ∧ (∀ cc : ComboCell, cc.pin = none →
        updateTimingTabPinCombo cc "" "" = some []
          ∧ ∀ p : String, updateTimingTabRelatedPinCombo cc p "" "" = none) := by
  have hv : leakageMultiValue lc.entries w pg = none := by
    unfold leakageMultiValue
    rw [hl]
    rfl
  refine ⟨?_, rfl, ?_, ?_, ?_⟩
  · simp [timingMultiRows, timingMultiCell, hc]
  · simp [leakageMultiRows, List.map_append, List.map_cons, hv]
  · simp [leakageFigureY, List.map_append, List.map_cons, hv]
  · intro cc hp
    constructor
    · unfold updateTimingTabPinCombo
      rw [if_neg (fun h => h rfl), if_neg (fun h => h rfl), hp]
    · intro p
      unfold updateTimingTabRelatedPinCombo
      rw [if_neg (fun h => h rfl), if_neg (fun h => h rfl), hp]

/-- C7, witness: a concrete non-matching timing cell contributes no rows,
a concrete non-matching leakage cell contributes the default point, and
the concrete bundle-only cell crashes the related-pin stage. -/
theorem c7_noMatch_witness :
    ((⟨"L", "C2", []⟩ : TimingCell).arcs.filter (arcMatches keyC2) = []
      ∧ (⟨"L", "C2", [⟨"5", "w2", "VDD"⟩]⟩ : LeakCell).entries.find?
          (fun e => e.whenCond = "w1" ∧ e.relatedPgPin = "VDD") = none)
    ∧ timingMultiRows ([] ++ (⟨"L", "C2", []⟩ : TimingCell) :: []) keyC2 "cell_rise" "" ""
        = timingMultiRows [] keyC2 "cell_rise" "" ""
          ++ timingMultiRows [] keyC2 "cell_rise" "" ""
    ∧ leakageFigureY ([] ++ (⟨"L", "C2", [⟨"5", "w2", "VDD"⟩]⟩ : LeakCell) :: []) "w1" "VDD"
        = leakageFigureY [] "w1" "VDD" ++ 0 :: leakageFigureY [] "w1" "VDD"
    ∧ updateTimingTabRelatedPinCombo comboCellC7 "" "" "" = none := by
  have h := c7_noMatch_amended [] [] ⟨"L", "C2", []⟩ [] []
    ⟨"L", "C2", [⟨"5", "w2", "VDD"⟩]⟩ keyC2 "cell_rise" "" "" "w1" "VDD"
    (by decide) (by decide)
  exact ⟨⟨by decide, by decide⟩, h.1, h.2.2.2.1,
    (h.2.2.2.2 comboCellC7 rfl).2 ""⟩

/-- C7, counterexample to the claim as stated: in the leakage-power
comparison a selected cell with no matching entry still contributes a row
(with the default value) and the point `0.0` to the comparison curve; and
for a bundle-only cell the pin stage yields an empty candidate set but the
downstream related-pin stage raises `KeyError` (modelled as `none`)
instead of an empty result. -/
theorem c7_counterexample :
    leakageMultiValue [⟨"5", "w2", "VDD"⟩] "w1" "VDD" = none
    ∧ (leakageMultiRows [⟨"L1", "C1", [⟨"5", "w1", "VDD"⟩]⟩,
        ⟨"L1", "C2", [⟨"5", "w2", "VDD"⟩]⟩] "w1" "VDD").length = 2
    ∧ leakageFigureY [⟨"L1", "C1", [⟨"5", "w1", "VDD"⟩]⟩,
        ⟨"L1", "C2", [⟨"5", "w2", "VDD"⟩]⟩] "w1" "VDD" = [5, 0]
    ∧ comboCellC7.pin = none
    ∧ updateTimingTabPinCombo comboCellC7 "" "" = some []
    ∧ updateTimingTabRelatedPinCombo comboCellC7 "" "" "" = none := by
  refine ⟨by decide, by decide, ?_, rfl, rfl, rfl⟩
  have h : leakageFigureY [⟨"L1", "C1", [⟨"5", "w1", "VDD"⟩]⟩,
      ⟨"L1", "C2", [⟨"5", "w2", "VDD"⟩]⟩] "w1" "VDD" = [pyFloat "5", 0] := rfl
  rw [h]
  simp [pyFloat, digitsToNat, digitVal, isPyDigit, List.takeWhile]

/-! ## Cell series sorter (claim C5) -/

/-- Membership in the deduplicated key list is plain membership. -/
theorem mem_dedupKeys : ∀ (xs : List String) (a : String),
    a ∈ dedupKeys xs ↔ a ∈ xs
  | [], a => by simp [dedupKeys]
  | x :: xs, a => by
    simp only [dedupKeys, List.mem_cons]
    by_cases hax : a = x
    · simp [hax]
    · simp only [hax, false_or]
      rw [mem_dedupKeys (xs.filter (fun y => y ≠ x)) a]
      simp [List.mem_filter, hax]
termination_by xs _ => xs.length
decreasing_by
  simp only [List.length_cons]
  exact Nat.lt_succ_of_le (List.length_filter_le _ _)

/-- The deduplicated key list has no duplicates. -/
theorem nodup_dedupKeys : ∀ (xs : List String), (dedupKeys xs).Nodup
  | [] => by simp [dedupKeys]
  | x :: xs => by
    simp only [dedupKeys, List.nodup_cons]
    refine ⟨?_, nodup_dedupKeys (xs.filter (fun y => y ≠ x))⟩
    rw [mem_dedupKeys]
    simp [List.mem_filter]
termination_by xs => xs.length
decreasing_by
  simp only [List.length_cons]
  exact Nat.lt_succ_of_le (List.length_filter_le _ _)

/-- Deduplication of a list with one key appended. -/
theorem dedupKeys_append_singleton : ∀ (xs : List String) (k : String),
    dedupKeys (xs ++ [k])
      = (if k ∈ xs then dedupKeys xs else dedupKeys xs ++ [k])
  | [], k => by simp [dedupKeys]
  | x :: xs, k => by
    by_cases hkx : k = x
    · simp only [List.cons_append, dedupKeys, hkx, List.mem_cons, true_or, if_pos]
      have hfil : (xs ++ [x]).filter (fun y => y ≠ x)
          = xs.filter (fun y => y ≠ x) := by
        rw [List.filter_append]
        simp
      rw [hfil]
    · simp only [List.cons_append, dedupKeys]
      have hfil : (xs ++ [k]).filter (fun y => y ≠ x)
          = xs.filter (fun y => y ≠ x) ++ [k] := by
        rw [List.filter_append]
        simp [hkx]
      rw [hfil, dedupKeys_append_singleton (xs.filter (fun y => y ≠ x)) k]
      by_cases hk : k ∈ xs
      · have : k ∈ xs.filter (fun y => y ≠ x) := by
          simp [List.mem_filter, hk, hkx]
        rw [if_pos this]
        simp [List.mem_cons, hkx, hk]
      · have : k ∉ xs.filter (fun y => y ≠ x) := by
          simp [List.mem_filter, hk]
        rw [if_neg this]
        simp [List.mem_cons, hkx, hk]
termination_by xs _ => xs.length
decreasing_by
  simp only [List.length_cons]
  exact Nat.lt_succ_of_le (List.length_filter_le _ _)

/-- Unmatched cells when an unmatched name is appended. -/
theorem unmatchedCells_append_none (L : List String) (n : String)
    (h : seriesKey n = none) :
    unmatchedCells (L ++ [n]) = unmatchedCells L ++ [n] := by
  unfold unmatchedCells
  rw [List.filter_append]
  simp [h]

/-- Unmatched cells when a matching name is appended. -/
theorem unmatchedCells_append_some (L : List String) (n k : String)
    (h : seriesKey n = some k) :
    unmatchedCells (L ++ [n]) = unmatchedCells L := by
  unfold unmatchedCells
  rw [List.filter_append]
  simp [h]

/-- Group members of the appended name's own key. -/
theorem membersOf_append_eq (L : List String) (n k : String)
    (h : seriesKey n = some k) :
    membersOf (L ++ [n]) k = membersOf L k ++ [n] := by
  unfold membersOf
  rw [List.filter_append]
  simp [h]

/-- Group members of any other key are unchanged by an append. -/
theorem membersOf_append_ne (L : List String) (n k : String)
    (h : ¬ seriesKey n = some k) :
    membersOf (L ++ [n]) k = membersOf L k := by
  unfold membersOf
  rw [List.filter_append]
  simp [h]

/-- Keys are unchanged when an unmatched name is appended. -/
theorem keysInOrder_append_none (L : List String) (n : String)
    (h : seriesKey n = none) :
    keysInOrder (L ++ [n]) = keysInOrder L := by
  unfold keysInOrder
  rw [List.filterMap_append]
  simp [h]

/-- Keys are unchanged when a name of a known key is appended. -/
theorem keysInOrder_append_some_mem (L : List String) (n k : String)
    (h : seriesKey n = some k) (hm : k ∈ keysInOrder L) :
    keysInOrder (L ++ [n]) = keysInOrder L := by
  unfold keysInOrder
  rw [List.filterMap_append]
  simp only [h, List.filterMap_cons, List.filterMap_nil]
  rw [dedupKeys_append_singleton]
  unfold keysInOrder at hm
  rw [mem_dedupKeys] at hm
  rw [if_pos hm]

/-- A name of a fresh key appends its key at the end. -/
theorem keysInOrder_append_some_new (L : List String) (n k : String)
    (h : seriesKey n = some k) (hm : k ∉ keysInOrder L) :
    keysInOrder (L ++ [n]) = keysInOrder L ++ [k] := by
  unfold keysInOrder
  rw [List.filterMap_append]
  simp only [h, List.filterMap_cons, List.filterMap_nil]
  rw [dedupKeys_append_singleton]
  unfold keysInOrder at hm
  rw [mem_dedupKeys] at hm
  rw [if_neg hm]

/-- A key with no members does not occur among the keys. -/
theorem membersOf_ne_nil (L : List String) (k : String)
    (h : k ∈ keysInOrder L) : membersOf L k ≠ [] := by
  unfold keysInOrder at h
  rw [mem_dedupKeys, List.mem_filterMap] at h
  rcases h with ⟨n, hn, hkn⟩
  intro hnil
  have : n ∈ membersOf L k := by
    unfold membersOf
    rw [List.mem_filter]
    exact ⟨hn, by simp [hkn]⟩
  rw [hnil] at this
  exact List.not_mem_nil n this

/-- A key that does not occur has no members. -/
theorem membersOf_of_not_mem (L : List String) (k : String)
    (h : k ∉ keysInOrder L) : membersOf L k = [] := by
  by_contra hne
  rcases List.exists_mem_of_ne_nil _ hne with ⟨n, hn⟩
  unfold membersOf at hn
  rw [List.mem_filter] at hn
  apply h
  unfold keysInOrder
  rw [mem_dedupKeys, List.mem_filterMap]
  exact ⟨n, hn.1, by simpa using hn.2⟩

/-- The `setdefault`-append on a list whose head key matches. -/
theorem adAppend_cons_eq (p : String × List String)
    (rest : List (String × List String)) (k v : String) (h : p.1 = k) :
    adAppend (p :: rest) k v = (p.1, p.2 ++ [v]) :: rest := by
  simp [adAppend, h]

/-- The `setdefault`-append on a list whose head key differs. -/
theorem adAppend_cons_ne (p : String × List String)
    (rest : List (String × List String)) (k v : String) (h : ¬ p.1 = k) :
    adAppend (p :: rest) k v = p :: adAppend rest k v := by
  simp [adAppend, h]

/-- Appending to a key present in a keyed map of groups. -/
theorem adAppend_mapped (f : String → List String) (k v : String) :
    ∀ (ks : List String), ks.Nodup → k ∈ ks →
      adAppend (ks.map (fun k0 => (k0, f k0))) k v
        = ks.map (fun k0 => (k0, if k0 = k then f k0 ++ [v] else f k0))
  | [], _, hk => absurd hk (List.not_mem_nil k)
  | x :: ks, hnd, hk => by
    by_cases hx : x = k
    · rw [List.map_cons, adAppend_cons_eq _ _ _ _ hx, List.map_cons, if_pos hx]
      congr 1
      symm
      apply List.map_congr_left
      intro k0 hk0
      have : ¬ k0 = k := by
        intro he
        exact (List.nodup_cons.mp hnd).1 (hx ▸ he ▸ hk0)
      rw [if_neg this]
    · have hk' : k ∈ ks := by
        rcases List.mem_cons.mp hk with h | h
        · exact absurd h.symm hx
        · exact h
      rw [List.map_cons, adAppend_cons_ne _ _ _ _ hx, List.map_cons, if_neg hx]
      rw [adAppend_mapped f k v ks (List.nodup_cons.mp hnd).2 hk']

/-- Appending to a key absent from a keyed map of groups. -/
theorem adAppend_mapped_new (f : String → List String) (k v : String) :
    ∀ (ks : List String), k ∉ ks →
      adAppend (ks.map (fun k0 => (k0, f k0))) k v
        = ks.map (fun k0 => (k0, f k0)) ++ [(k, [v])]
  | [], _ => rfl
  | x :: ks, hk => by
    have hx : ¬ x = k := fun h => hk (h ▸ List.mem_cons_self x ks)
    rw [List.map_cons, adAppend_cons_ne _ _ _ _ hx, List.cons_append]
    rw [adAppend_mapped_new f k v ks (fun h => hk (List.mem_cons_of_mem x h))]

/-- The tail returned by the series matcher starts with `BWP`. -/
theorem scanSeries_bwp : ∀ (l hdRev : List Char) (h ds t : String),
    scanSeries hdRev l = some (h, ds, t) → startsBWP t.data = true
  | [], hdRev, h, ds, t, he => by simp [scanSeries] at he
  | c :: rest, hdRev, h, ds, t, he => by
    rw [scanSeries] at he
    by_cases hcd : c = 'D' ∧ ¬ hdRev.isEmpty
    · rw [if_pos hcd] at he
      simp only at he
      by_cases hcond : ¬ (rest.takeWhile isPyDigit).isEmpty
          ∧ startsBWP (rest.drop (rest.takeWhile isPyDigit).length)
      · rw [if_pos hcond] at he
        injection he with he1
        injection he1 with he2 he3
        injection he3 with he4 he5
        rw [← he5]
        exact hcond.2
      · rw [if_neg hcond] at he
        exact scanSeries_bwp rest (c :: hdRev) h ds t he
    · rw [if_neg hcd] at he
      exact scanSeries_bwp rest (c :: hdRev) h ds t he

/-- A character list starting with `BWP` contains `B`. -/
theorem startsBWP_memB (l : List Char) (h : startsBWP l = true) : 'B' ∈ l := by
  unfold startsBWP at h
  split at h
  · simp
  · cases h

/-- No series key is the catch-all key. -/
theorem seriesKey_ne_zzz (n k : String) (h : seriesKey n = some k) :
    k ≠ "zzz" := by
  unfold seriesKey classifySeries matchSeries at h
  cases hm : scanSeries [] n.data with
  | none => rw [hm] at h; cases h
  | some t =>
    rw [hm] at h
    rcases t with ⟨hd, ds, tl⟩
    have hbwp := scanSeries_bwp n.data [] hd ds tl hm
    have hk : k = hd ++ tl := by
      simp only [Option.map_some', Option.some.injEq] at h
      exact h.symm
    intro he
    have hmem : 'B' ∈ (hd ++ tl).data := by
      rw [String.data_append]
      exact List.mem_append_right _ (startsBWP_memB _ hbwp)
    rw [← hk, he] at hmem
    simp at hmem

/-- The classification loop builds the catch-all bucket plus one group per
key in first-occurrence order, each holding its members in input order. -/
theorem buildSeries_eq (L : List String) :
    buildSeries L = ("zzz", unmatchedCells L)
      :: (keysInOrder L).map (fun k => (k, membersOf L k)) := by
  induction L using List.reverseRecOn with
  | nil => simp [buildSeries, unmatchedCells, keysInOrder, dedupKeys]
  | append_singleton L n ih =>
    have hstep : buildSeries (L ++ [n]) = seriesStep (buildSeries L) n := by
      unfold buildSeries
      rw [List.foldl_append]
      rfl
    cases hn : classifySeries n with
    | none =>
      have hkey : seriesKey n = none := by
        unfold seriesKey
        rw [hn]
        rfl
      have hstep2 : seriesStep (buildSeries L) n = adAppend (buildSeries L) "zzz" n := by
        unfold seriesStep
        rw [hn]
      rw [hstep, hstep2, ih, adAppend_cons_eq _ _ _ _ rfl,
        unmatchedCells_append_none L n hkey, keysInOrder_append_none L n hkey]
      refine List.cons_eq_cons.mpr ⟨rfl, ?_⟩
      apply List.map_congr_left
      intro k hk
      rw [membersOf_append_ne L n k (by rw [hkey]; intro h; cases h)]
    | some kv =>
      have hkey : seriesKey n = some kv.1 := by
        unfold seriesKey
        rw [hn]
        rfl
      have hzzz : kv.1 ≠ "zzz" := seriesKey_ne_zzz n kv.1 hkey
      have hstep2 : seriesStep (buildSeries L) n = adAppend (buildSeries L) kv.1 n := by
        unfold seriesStep
        rw [hn]
      have hne : ("zzz", unmatchedCells L).1 ≠ kv.1 := by
        show "zzz" ≠ kv.1
        exact fun h => hzzz h.symm
      rw [hstep, hstep2, ih, adAppend_cons_ne _ _ _ _ hne,
        unmatchedCells_append_some L n kv.1 hkey]
      by_cases hmem : kv.1 ∈ keysInOrder L
      · rw [keysInOrder_append_some_mem L n kv.1 hkey hmem,
          adAppend_mapped (membersOf L) kv.1 n (keysInOrder L) (nodup_dedupKeys _) hmem]
        congr 1
        apply List.map_congr_left
        intro k hk
        by_cases hkk : k = kv.1
        · rw [if_pos hkk, hkk, membersOf_append_eq L n kv.1 hkey]
        · rw [if_neg hkk,
            membersOf_append_ne L n k (by
              rw [hkey]
              intro h
              injection h with h1
              exact hkk h1.symm)]
      · rw [keysInOrder_append_some_new L n kv.1 hkey hmem,
          adAppend_mapped_new (membersOf L) kv.1 n (keysInOrder L) hmem,
          List.map_append]
        refine List.cons_eq_cons.mpr ⟨rfl, ?_⟩
        congr 1
        · apply List.map_congr_left
          intro k hk
          rw [membersOf_append_ne L n k (by
            rw [hkey]
            intro h
            injection h with h1
            exact hmem (h1 ▸ hk))]
        · simp only [List.map_cons, List.map_nil]
          rw [membersOf_append_eq L n kv.1 hkey, membersOf_of_not_mem L kv.1 hmem]
          simp

/-- A map entry is a singleton group exactly when its list has length 1. -/
theorem singleVal_eq_none (p : String × List String) :
    singleVal p = none ↔ p.2.length ≠ 1 := by
  rcases p with ⟨k, vs⟩
  cases vs with
  | nil => simp [singleVal]
  | cons v rest =>
    cases rest with
    | nil => simp [singleVal]
    | cons w rest2 => simp [singleVal]

/-- Removal walks past an entry with a different key. -/
theorem adRemove_cons_ne (p : String × List String)
    (d : List (String × List String)) (k : String) (h : ¬ p.1 = k) :
    adRemove (p :: d) k = p :: adRemove d k := by
  simp [adRemove, h]

/-- Removal drops an entry with the given key. -/
theorem adRemove_cons_eq (p : String × List String)
    (d : List (String × List String)) (k : String) (h : p.1 = k) :
    adRemove (p :: d) k = adRemove d k := by
  simp [adRemove, h]

/-- Removing an absent key changes nothing. -/
theorem adRemove_id (d : List (String × List String)) (k : String)
    (h : ∀ p ∈ d, ¬ p.1 = k) : adRemove d k = d := by
  unfold adRemove
  apply List.filter_eq_self.mpr
  intro p hp
  simpa using h p hp

/-- Removal distributes over an append. -/
theorem adRemove_append (d e : List (String × List String)) (k : String) :
    adRemove (d ++ e) k = adRemove d k ++ adRemove e k := by
  simp [adRemove, List.filter_append]

/-- Lookup walks past an entry with a different key. -/
theorem adLookup_cons_ne {β : Type} (p : String × β) (d : List (String × β))
    (k : String) (h : ¬ p.1 = k) : adLookup (p :: d) k = adLookup d k := by
  simp [adLookup, h]

/-- Lookup stops at an entry with the given key. -/
theorem adLookup_cons_eq {β : Type} (p : String × β) (d : List (String × β))
    (k : String) (h : p.1 = k) : adLookup (p :: d) k = some p.2 := by
  simp [adLookup, h]

/-- The demotion step skips the catch-all key. -/
theorem demoteStep_zzz (acc : List (String × List String)) :
    demoteStep acc "zzz" = acc := by
  simp [demoteStep]

/-- The demotion step pops a singleton group and appends its member to the
catch-all bucket. -/
theorem demoteStep_single (acc : List (String × List String)) (k v : String)
    (hk : ¬ k = "zzz") (h : adLookup acc k = some [v]) :
    demoteStep acc k = adAppend (adRemove acc k) "zzz" v := by
  unfold demoteStep
  rw [if_neg hk, h]

/-- The demotion step keeps a non-singleton group untouched. -/
theorem demoteStep_keep (acc : List (String × List String)) (k : String)
    (vs : List String) (hk : ¬ k = "zzz") (h : adLookup acc k = some vs)
    (hvs : singleVal (k, vs) = none) : demoteStep acc k = acc := by
  unfold demoteStep
  rw [if_neg hk, h]
  cases vs with
  | nil => rfl
  | cons v rest =>
    cases rest with
    | nil => simp [singleVal] at hvs
    | cons w rest2 => rfl

/-- The demotion loop over the keys of the group part of the dict: the
singleton members move, in key order, to the end of the catch-all bucket
and their groups disappear. -/
theorem demoteLoop_eq :
    ∀ (g pre : List (String × List String)) (u : List String),
      "zzz" ∉ pre.map Prod.fst → "zzz" ∉ g.map Prod.fst →
      ((pre.map Prod.fst ++ g.map Prod.fst).Nodup) →
      (∀ p ∈ pre, singleVal p = none) →
      (g.map Prod.fst).foldl demoteStep (("zzz", u) :: (pre ++ g))
        = ("zzz", u ++ g.filterMap singleVal)
          :: (pre ++ g.filter (fun p => (singleVal p).isNone))
  | [], pre, u, _, _, _, _ => by simp
  | (k, vs) :: g', pre, u, hzp, hzg, hnd, hpre => by
    simp only [List.map_cons, List.foldl_cons]
    have hzk : ¬ k = "zzz" := by
      intro he
      exact hzg (by simp [he])
    have hzg' : "zzz" ∉ g'.map Prod.fst := by
      intro hm
      exact hzg (by simp [hm])
    have hdisj := List.nodup_append.mp hnd
    have hprene : ∀ p ∈ pre, ¬ p.1 = k := by
      intro p hp he
      exact hdisj.2.2 (he ▸ List.mem_map_of_mem Prod.fst hp) (by simp)
    have hkg' : k ∉ g'.map Prod.fst := by
      have := hdisj.2.1
      rw [List.map_cons, List.nodup_cons] at this
      exact this.1
    have hgne : ∀ p ∈ g', ¬ p.1 = k := by
      intro p hp he
      exact hkg' (he ▸ List.mem_map_of_mem Prod.fst hp)
    have hzne : ¬ ("zzz", u).1 = k := fun h => hzk h.symm
    have hlook : adLookup (("zzz", u) :: (pre ++ (k, vs) :: g')) k = some vs := by
      rw [adLookup_cons_ne _ _ _ hzne,
        adLookup_append_of_none _ _ _ ((adLookup_eq_none pre k).mpr hprene)]
      exact adLookup_cons_eq _ _ _ rfl
    cases hsv : singleVal (k, vs) with
    | some v =>
      have hvs : vs = [v] := by
        unfold singleVal at hsv
        cases vs with
        | nil => cases hsv
        | cons x rest =>
          cases rest with
          | nil =>
            injection hsv with h1
            rw [h1]
          | cons y rest2 => cases hsv
      subst hvs
      rw [demoteStep_single _ k v hzk hlook]
      have hrem : adRemove (("zzz", u) :: (pre ++ (k, [v]) :: g')) k
          = ("zzz", u) :: (pre ++ g') := by
        rw [adRemove_cons_ne _ _ _ hzne, adRemove_append,
          adRemove_cons_eq _ _ _ rfl, adRemove_id pre k hprene, adRemove_id g' k hgne]
      rw [hrem, adAppend_cons_eq _ _ _ _ rfl]
      have hnd' : ((pre.map Prod.fst ++ g'.map Prod.fst).Nodup) := by
        refine List.Nodup.sublist ?_ hnd
        exact List.Sublist.append_left (List.sublist_cons_self k _) _
      have ih := demoteLoop_eq g' pre (u ++ [v]) hzp hzg' hnd' hpre
      rw [ih]
      have hfm : List.filterMap singleVal ((k, [v]) :: g')
          = v :: g'.filterMap singleVal := by
        simp [List.filterMap_cons, hsv]
      have hfl : List.filter (fun p => (singleVal p).isNone) ((k, [v]) :: g')
          = g'.filter (fun p => (singleVal p).isNone) := by
        simp [List.filter_cons, hsv]
      rw [hfm, hfl, List.append_cons u v (g'.filterMap singleVal)]
    | none =>
      rw [demoteStep_keep _ k vs hzk hlook hsv]
      have hzp' : "zzz" ∉ (pre ++ [(k, vs)]).map Prod.fst := by
        rw [List.map_append]
        intro hm
        rcases List.mem_append.mp hm with hm | hm
        · exact hzp hm
        · simp only [List.map_cons, List.map_nil, List.mem_singleton] at hm
          exact hzk hm.symm
      have hnd' : (((pre ++ [(k, vs)]).map Prod.fst ++ g'.map Prod.fst).Nodup) := by
        rw [List.map_append]
        have heq : pre.map Prod.fst ++ [(k, vs)].map Prod.fst ++ g'.map Prod.fst
            = pre.map Prod.fst ++ ((k, vs) :: g').map Prod.fst := by
          simp
        rw [heq]
        exact hnd
      have hpre' : ∀ p ∈ pre ++ [(k, vs)], singleVal p = none := by
        intro p hp
        rcases List.mem_append.mp hp with hp | hp
        · exact hpre p hp
        · simp only [List.mem_singleton] at hp
          rw [hp]
          exact hsv
      have ih := demoteLoop_eq g' (pre ++ [(k, vs)]) u hzp' hzg' hnd' hpre'
      rw [List.append_cons pre (k, vs) g', ih]
      have hfm : List.filterMap singleVal ((k, vs) :: g')
          = g'.filterMap singleVal := by
        simp [List.filterMap_cons, hsv]
      have hfl : List.filter (fun p => (singleVal p).isNone) ((k, vs) :: g')
          = (k, vs) :: g'.filter (fun p => (singleVal p).isNone) := by
        simp [List.filter_cons, hsv]
      rw [hfm, hfl, List.append_cons pre (k, vs)
        (g'.filter (fun p => (singleVal p).isNone))]

/-- Characterisation of the demotion pass on a dict whose head is the
catch-all bucket: singletons move to the end of the bucket, the other
groups survive in order. -/
theorem demoteSeries_eq (u : List String) (g : List (String × List String))
    (hz : "zzz" ∉ g.map Prod.fst) (hnd : (g.map Prod.fst).Nodup) :
    demoteSeries (("zzz", u) :: g)
      = ("zzz", u ++ g.filterMap singleVal)
        :: g.filter (fun p => (singleVal p).isNone) := by
  unfold demoteSeries
  simp only [List.map_cons, List.foldl_cons, demoteStep_zzz]
  have h := demoteLoop_eq g [] u (by simp) hz (by simpa using hnd) (by simp)
  simpa using h

/-- A singleton group holds exactly its one member. -/
theorem singleVal_eq_some (p : String × List String) (v : String) :
    singleVal p = some v ↔ p.2 = [v] := by
  rcases p with ⟨k, vs⟩
  cases vs with
  | nil => simp [singleVal]
  | cons x rest =>
    cases rest with
    | nil => simp [singleVal]
    | cons y rest2 => simp [singleVal]

/-- Extracting the singleton members from a keyed family equals flattening
the singleton groups. -/
theorem filterMap_singleVal_mapped (f : String → List String) :
    ∀ ks : List String,
      ((ks.map (fun k => (k, f k))).filterMap singleVal)
        = ((ks.filter (fun k => (f k).length = 1)).map f).flatten
  | [] => rfl
  | k :: ks => by
    have ih := filterMap_singleVal_mapped f ks
    cases hv : f k with
    | nil => simp [List.filterMap_cons, List.filter_cons, singleVal, hv, ih]
    | cons v rest =>
      cases rest with
      | nil => simp [List.filterMap_cons, List.filter_cons, singleVal, hv, ih]
      | cons w rest2 =>
        simp [List.filterMap_cons, List.filter_cons, singleVal, hv, ih]

/-- Keeping the non-singleton entries of a keyed family filters the keys by
group size. -/
theorem filter_isNone_mapped (f : String → List String) :
    ∀ ks : List String,
      ((ks.map (fun k => (k, f k))).filter (fun p => (singleVal p).isNone))
        = (ks.filter (fun k => ¬ (f k).length = 1)).map (fun k => (k, f k))
  | [] => rfl
  | k :: ks => by
    have ih := filter_isNone_mapped f ks
    simp only [List.map_cons, List.filter_cons]
    by_cases h1 : (f k).length = 1
    · obtain ⟨v, hv⟩ := List.length_eq_one.mp h1
      have hsv : singleVal (k, f k) = some v := (singleVal_eq_some _ v).mpr hv
      rw [if_neg (by simp [hsv]), if_neg (by simp [h1])]
      exact ih
    · have hsv : singleVal (k, f k) = none := (singleVal_eq_none _).mpr h1
      rw [if_pos (by simp [hsv]), if_pos (by simp [h1])]
      rw [ih, List.map_cons]

/-- On the actual group keys, not being a singleton means having at least
two members. -/
theorem filter_ne_one_eq_multi (L : List String) :
    ((keysInOrder L).filter (fun k => ¬ (membersOf L k).length = 1))
      = multiKeys L := by
  unfold multiKeys
  apply List.filter_congr
  intro k hk
  have hne := membersOf_ne_nil L k hk
  have hpos : 0 < (membersOf L k).length := List.length_pos.mpr hne
  simp only [decide_eq_decide]
  omega

/-- Lookup of a present key in a keyed family. -/
theorem adLookup_mapped (f : String → List String) :
    ∀ (ks : List String) (k : String), k ∈ ks →
      adLookup (ks.map (fun j => (j, f j))) k = some (f k)
  | [], k, hk => absurd hk (List.not_mem_nil k)
  | x :: ks, k, hk => by
    by_cases hx : x = k
    · subst hx
      exact adLookup_cons_eq _ _ _ rfl
    · have hk' : k ∈ ks := by
        rcases List.mem_cons.mp hk with h | h
        · exact absurd h.symm hx
        · exact h
      rw [List.map_cons, adLookup_cons_ne _ _ _ hx]
      exact adLookup_mapped f ks k hk'

/-- Every group key differs from the catch-all key. -/
theorem keysInOrder_ne_zzz (L : List String) (k : String)
    (h : k ∈ keysInOrder L) : k ≠ "zzz" := by
  unfold keysInOrder at h
  rw [mem_dedupKeys, List.mem_filterMap] at h
  rcases h with ⟨n, _, hkn⟩
  exact seriesKey_ne_zzz n k hkn

/-- The group keys in first-occurrence order are nodup. -/
theorem keysInOrder_nodup (L : List String) : (keysInOrder L).Nodup := by
  unfold keysInOrder
  exact nodup_dedupKeys _

/-- The first projection recovers the key list of a keyed family. -/
theorem map_fst_mapped (f : String → List String) (ks : List String) :
    (ks.map (fun k => (k, f k))).map Prod.fst = ks := by
  induction ks with
  | nil => rfl
  | cons k ks ih => simp only [List.map_cons, ih]

/-- The dict after the demotion pass: the catch-all bucket followed by the
real (at least two member) groups in first-occurrence order. -/
theorem demotedDict_eq (L : List String) :
    demoteSeries (buildSeries L)
      = ("zzz", catchAllCells L)
        :: (multiKeys L).map (fun k => (k, membersOf L k)) := by
  rw [buildSeries_eq]
  have hkeys : (((keysInOrder L).map (fun k => (k, membersOf L k))).map Prod.fst)
      = keysInOrder L := map_fst_mapped (membersOf L) (keysInOrder L)
  have hz : "zzz" ∉ (((keysInOrder L).map
      (fun k => (k, membersOf L k))).map Prod.fst) := by
    rw [hkeys]
    intro hm
    exact keysInOrder_ne_zzz L "zzz" hm rfl
  have hnd : ((((keysInOrder L).map
      (fun k => (k, membersOf L k))).map Prod.fst).Nodup) := by
    rw [hkeys]
    exact keysInOrder_nodup L
  rw [demoteSeries_eq (unmatchedCells L) _ hz hnd,
    filterMap_singleVal_mapped (membersOf L) (keysInOrder L),
    filter_isNone_mapped (membersOf L) (keysInOrder L),
    filter_ne_one_eq_multi L]
  rfl

/-- Insertion keeps exactly the old elements plus the new one. -/
theorem mem_insertLe {α : Type} (le : α → α → Bool) (x a : α) :
    ∀ l : List α, a ∈ insertLe le x l ↔ a = x ∨ a ∈ l
  | [] => by simp [insertLe]
  | y :: ys => by
    unfold insertLe
    by_cases h : le y x = true
    · rw [if_pos h]
      simp only [List.mem_cons, mem_insertLe le x a ys]
      tauto
    · rw [if_neg h]
      simp only [List.mem_cons]

/-- The sorting fold keeps exactly the accumulated and pending elements. -/
theorem mem_isortBy_fold {α : Type} (le : α → α → Bool) (a : α) :
    ∀ (l acc : List α),
      a ∈ l.foldl (fun acc x => insertLe le x acc) acc ↔ a ∈ acc ∨ a ∈ l
  | [], acc => by simp
  | x :: l, acc => by
    simp only [List.foldl_cons]
    rw [mem_isortBy_fold le a l (insertLe le x acc), mem_insertLe]
    simp only [List.mem_cons]
    tauto

/-- Sorting does not change membership. -/
theorem mem_isortBy {α : Type} (le : α → α → Bool) (a : α) (l : List α) :
    a ∈ isortBy le l ↔ a ∈ l := by
  unfold isortBy
  rw [mem_isortBy_fold]
  simp

/-- The sorter agrees with its specification-level description on every
input list. -/
theorem sortCellWithSize_refines (L : List String) :
    sortCellWithSize L = sortCellSpec L := by
  simp only [sortCellWithSize, sortCellSpec]
  rw [demotedDict_eq L]
  have hkeys : ((("zzz", catchAllCells L)
        :: (multiKeys L).map (fun k => (k, membersOf L k))).map Prod.fst)
      = "zzz" :: multiKeys L := by
    rw [List.map_cons, map_fst_mapped (membersOf L) (multiKeys L)]
  rw [hkeys]
  apply congrArg List.flatten
  apply List.map_congr_left
  intro k hk
  rw [mem_isortBy] at hk
  by_cases hkz : k = "zzz"
  · subst hkz
    rw [if_pos rfl, if_pos rfl,
      adLookup_cons_eq ("zzz", catchAllCells L) _ "zzz" rfl]
    rfl
  · have hkm : k ∈ multiKeys L := by
      rcases List.mem_cons.mp hk with h | h
      · exact absurd h hkz
      · exact h
    rw [if_neg hkz, if_neg hkz,
      adLookup_cons_ne ("zzz", catchAllCells L) _ k (fun h => hkz h.symm),
      adLookup_mapped (membersOf L) (multiKeys L) k hkm]
    rfl

/-- C5: amended sorter claim. For every input cell-name list the sorter
classifies each name against the pattern head `D` digits tail where the
tail must begin with `BWP` (non-matching names fall into the catch-all
bucket), groups matching names by the concatenation head ++ tail, demotes
groups with exactly one member into the catch-all bucket keyed `"zzz"` in
key order, sorts all group keys including the catch-all key
lexicographically together (so the catch-all bucket is not necessarily
last), orders real groups by parsed integer drive strength ascending
(stably) and the catch-all bucket lexicographically, and concatenates the
groups in sorted key order; in particular sorting
`["INVD1BWP", "INVD2BWP", "BUFD4BWP"]` yields
`["INVD1BWP", "INVD2BWP", "BUFD4BWP"]`. -/
theorem c5_sorter_amended :
    (∀ L : List String, sortCellWithSize L = sortCellSpec L)
      ∧ sortCellWithSize ["INVD1BWP", "INVD2BWP", "BUFD4BWP"]
          = ["INVD1BWP", "INVD2BWP", "BUFD4BWP"] :=
  ⟨sortCellWithSize_refines, rfl⟩

/-- C5: counterexamples to the frozen claim. The code's pattern requires
the tail after the digits to begin with `BWP`, so `INVD2X` does not match
the claim's pattern head `D` digits tail and is sorted lexicographically
in the catch-all bucket instead of by drive strength; the catch-all bucket
is sorted together with the real group keys rather than placed last, so a
group keyed above `"zzz"` comes after it; and grouping is by the
concatenation head ++ tail rather than by the (head, tail) pair, so two
names with distinct (head, tail) pairs but equal concatenations form one
two-member group instead of two demoted singletons. -/
theorem c5_counterexample :
    seriesKey "INVD2X" = none
      ∧ sortCellWithSize ["INVD2X", "INVD10X"] = ["INVD10X", "INVD2X"]
      ∧ sortCellWithSize ["zzzzD1BWP", "zzzzD2BWP", "AX"]
          = ["AX", "zzzzD1BWP", "zzzzD2BWP"]
      ∧ sortCellWithSize ["QD1BWPBWP", "QBWPD2BWP"]
          = ["QD1BWPBWP", "QBWPD2BWP"] :=
  ⟨rfl, rfl, rfl, rfl⟩

/-- C4: `getTimingInfo` aliases the parser's raw pin list when it inherits
bundle-level arcs (`extend` mutates the raw tree), so running the same
projection pass twice over the same raw tree does not reproduce the same
per-cell records: on the second pass the pin inherits the bundle arc a
second time. -/
theorem c4_secondPass_differs :
    (scopePass scC4).1 = [("P", some (projTimingList [arcPin, arcBundle]))]
    ∧ (scopePass (scopePass scC4).2).1
        = [("P", some (projTimingList [arcPin, arcBundle, arcBundle]))]
    ∧ (scopePass scC4).1 ≠ (scopePass (scopePass scC4).2).1 := by
  refine ⟨by decide, by decide, by decide⟩

end LibView
